import Mathlib

/-!
Verification development for the `gogo` Gene Ontology graph store.

The Go sources are shallowly embedded: Go machine integers (`int64`
handles) are modelled as `Int`; Go maps are modelled as association
lists with replace-on-insert semantics; Go pointer identity of
`*rdf.Statement` values is modelled by a statement heap indexed by
`StmtId`, with `AddStatement`'s in-place mutation of term UIDs
modelled as an update of the heap entry.  External gonum collaborators
(`rdf.Term.Parts`, `uid.Set`, the `traverse` walkers and the
`iterator` views) are modelled at their documented interfaces, as
noted on each definition.
-/

deriving instance DecidableEq for Except

namespace Gogo

/-- Sixty-four bit Go handles, modelled as unbounded integers; the code
never exercises wrap-around (allocation panics at `uid.Max`). -/
abbrev Id64 := Int

/-- Embeds gonum `rdf.Term`: a textual value plus a mutable handle. -/
structure Term where
  value : String
  uid : Id64
deriving DecidableEq, Repr

/-- Embeds gonum `rdf.Statement`: a subject, predicate, object triple. -/
structure Stmt where
  subject : Term
  predicate : Term
  object : Term
deriving DecidableEq, Repr

/-- Identity of a `*rdf.Statement` pointer: distinct statement instances
have distinct `StmtId`s even when their field values coincide. -/
abbrev StmtId := Nat

/-- Embeds the `Descendant` struct: a term together with its BFS depth. -/
structure Descendant where
  term : Term
  depth : Int
deriving DecidableEq, Repr

/-! ### Association-list maps

Go `map` values are modelled as association lists.  `alInsert`
replaces any previous binding of the key; `alErase` removes the
binding.  Lookup takes the first binding, so the usual map laws hold
pointwise without a separate no-duplicate invariant. -/

/-- Looks a key up in an association list, taking the first binding. -/
def alFind {κ α : Type} [DecidableEq κ] (m : List (κ × α)) (k : κ) : Option α :=
  (m.find? (fun e => e.1 = k)).map (·.2)

/-- Removes every binding of a key from an association list. -/
def alErase {κ α : Type} [DecidableEq κ] (m : List (κ × α)) (k : κ) : List (κ × α) :=
  m.filter (fun e => e.1 ≠ k)

/-- Binds a key, replacing any previous binding (Go map assignment). -/
def alInsert {κ α : Type} [DecidableEq κ] (m : List (κ × α)) (k : κ) (v : α) : List (κ × α) :=
  (k, v) :: alErase m k

/-- Reports whether a key is bound (Go `_, ok := m[k]`). -/
def alContains {κ α : Type} [DecidableEq κ] (m : List (κ × α)) (k : κ) : Bool :=
  (alFind m k).isSome

/-- Keys of an association list, in binding order. -/
def alKeys {κ α : Type} (m : List (κ × α)) : List κ :=
  m.map (·.1)

/-- Applies a function to the value bound to a key, if any; a missing
key leaves the map unchanged (Go operations on an absent or nil map
entry are no-ops). -/
def mapUpdate {κ α : Type} [DecidableEq κ] (m : List (κ × α)) (k : κ) (f : α → α) :
    List (κ × α) :=
  match alFind m k with
  | none => m
  | some v => alInsert m k (f v)

theorem alFind_nil {κ α : Type} [DecidableEq κ] (k : κ) :
    alFind ([] : List (κ × α)) k = none := rfl

theorem alFind_cons {κ α : Type} [DecidableEq κ] (a : κ) (b : α) (m : List (κ × α)) (k : κ) :
    alFind ((a, b) :: m) k = if a = k then some b else alFind m k := by
  by_cases h : a = k <;> simp [alFind, List.find?_cons, h]

theorem alFind_erase {κ α : Type} [DecidableEq κ] (m : List (κ × α)) (k k' : κ) :
    alFind (alErase m k) k' = if k' = k then none else alFind m k' := by
  induction m with
  | nil => by_cases h : k' = k <;> simp [alErase, alFind, h]
  | cons e tl ih =>
    obtain ⟨a, b⟩ := e
    by_cases he : a = k
    · subst he
      rw [show alErase ((a, b) :: tl) a = alErase tl a from by simp [alErase], ih,
        alFind_cons]
      by_cases hk : k' = a
      · simp [hk]
      · rw [if_neg hk, if_neg hk, if_neg (fun h : a = k' => hk h.symm)]
    · rw [show alErase ((a, b) :: tl) k = (a, b) :: alErase tl k from by simp [alErase, he],
        alFind_cons, alFind_cons, ih]
      by_cases ha : a = k'
      · have hkk : ¬ k' = k := fun h => he (by rw [ha, h])
        simp [ha, hkk]
      · simp [ha]

theorem alFind_insert {κ α : Type} [DecidableEq κ] (m : List (κ × α)) (k k' : κ) (v : α) :
    alFind (alInsert m k v) k' = if k' = k then some v else alFind m k' := by
  unfold alInsert
  rw [alFind_cons, alFind_erase]
  by_cases h : k = k'
  · simp [h]
  · rw [if_neg h, if_neg (fun hh : k' = k => h hh.symm), if_neg (fun hh : k' = k => h hh.symm)]

theorem alFind_mapUpdate {κ α : Type} [DecidableEq κ] (m : List (κ × α)) (k k' : κ)
    (f : α → α) :
    alFind (mapUpdate m k f) k' =
      if k' = k then (alFind m k).map f else alFind m k' := by
  unfold mapUpdate
  cases hm : alFind m k with
  | none =>
    by_cases h : k' = k
    · subst h; simp [hm]
    · rw [if_neg h]
  | some v =>
    rw [alFind_insert]
    by_cases h : k' = k
    · simp [h]
    · rw [if_neg h, if_neg h]

theorem alFind_mem {κ α : Type} [DecidableEq κ] {m : List (κ × α)} {k : κ} {v : α}
    (h : alFind m k = some v) : (k, v) ∈ m := by
  unfold alFind at h
  cases hf : m.find? (fun e => e.1 = k) with
  | none => rw [hf] at h; simp at h
  | some e =>
    rw [hf] at h
    simp only [Option.map_some', Option.some.injEq] at h
    have hmem := List.mem_of_find?_eq_some hf
    have hkey := List.find?_some hf
    simp only [decide_eq_true_eq] at hkey
    have : e = (k, v) := by
      cases e; simp_all
    exact this ▸ hmem

/-! ### String helpers

Kernel-friendly character-list versions of the Go `strings`
operations used by the sources. -/

/-- Reports whether the first character list starts with the second. -/
def chStarts : List Char → List Char → Bool
  | _, [] => true
  | [], _ :: _ => false
  | a :: as, b :: bs => a == b && chStarts as bs

/-- Embeds Go `strings.HasPrefix(s, p)`. -/
def strHas (s p : String) : Bool :=
  chStarts s.data p.data

/-! ### Term parsing

`rdf.Term.Parts` is an external gonum collaborator (statement decoding
is out of scope for this repository), modelled at its interface: it
classifies a term's textual value as an IRI (`<...>`), a blank node
(`_:...`) or a literal (`"...`), returning the text inside the IRI
delimiters, and reports an error for any other shape. -/

/-- Embeds the gonum `rdf` term kinds. -/
inductive Kind where
  | invalid
  | iri
  | blank
  | literal
deriving DecidableEq, Repr

/-- Modelled from the external `rdf.Term.Parts` interface: classifies a
textual value and extracts the IRI text. -/
def parts (v : String) : Except String (String × Kind) :=
  if strHas v "<" && strHas (String.mk v.data.reverse) ">" && decide (2 < v.data.length) then
    .ok (String.mk ((v.data.drop 1).dropLast), .iri)
  else if strHas v "_:" && decide (2 < v.data.length) then
    .ok (String.mk (v.data.drop 2), .blank)
  else if strHas v "\"" then
    .ok (v, .literal)
  else
    .error "rdf: invalid term"

/-! ### Identity allocation

`uid.Set` is an external gonum collaborator modelled at its interface.
`newID` returns a previously released handle when one exists and
`maxID + 1` otherwise; Go iterates the `free` map in unspecified
order, modelled here by taking the head of the free list.  Handle
exhaustion at `uid.Max` is never exercised and is not modelled. -/

structure UidSet where
  maxID : Int
  used : List Int
  free : List Int
deriving DecidableEq, Repr

/-- Embeds `uid.NewSet`. -/
def UidSet.newSet : UidSet := ⟨-1, [], []⟩

/-- Embeds `uid.Set.NewID`. -/
def UidSet.newID (s : UidSet) : Int :=
  match s.free with
  | id :: _ => id
  | [] => s.maxID + 1

/-- Embeds `uid.Set.Use`. -/
def UidSet.use (s : UidSet) (id : Int) : UidSet :=
  { maxID := max s.maxID id
    used := if id ∈ s.used then s.used else id :: s.used
    free := s.free.filter (· ≠ id) }

/-- Embeds `uid.Set.Release`. -/
def UidSet.release (s : UidSet) (id : Int) : UidSet :=
  { s with
    used := s.used.filter (· ≠ id)
    free := if id ∈ s.free then s.free else id :: s.free }

/-! ### The graph store -/

/-- Namespace mode `local`: predicates use qualified-name IRIs. -/
def localNS : Int := -1

/-- Namespace mode `unknown`: no statement has been added yet. -/
def unknownNS : Int := 0

/-- Namespace mode `global`: predicates use full `http:` IRIs. -/
def globalNS : Int := 1

/-- Statement heap: maps a statement instance identity to its current
field values.  `AddStatement` mutates the pointed-to statement's term
UIDs in place, modelled as an update of the heap entry. -/
abbrev Heap := List (StmtId × Stmt)

/-- Embeds the `Graph` struct.  The Go fields `from`, `to` and
`namespace` are Lean keywords and are embedded as `fromIdx`, `toIdx`
and `nspace`.  The adjacency indices store statement identities; the
statement values are read through the heap. -/
structure Graph where
  nodes : List (Id64 × Term)
  fromIdx : List (Id64 × List (Id64 × List (Id64 × StmtId)))
  toIdx : List (Id64 × List (Id64 × List (Id64 × StmtId)))
  pred : List (Id64 × List StmtId)
  termIDs : List (String × Id64)
  ids : UidSet
  nspace : Int
deriving DecidableEq, Repr

/-- Embeds `NewGraph`. -/
def newGraph : Graph :=
  { nodes := [], fromIdx := [], toIdx := [], pred := [], termIDs := []
    ids := UidSet.newSet, nspace := unknownNS }

/-- Looks up the line bound at `m[a][b][c]` in a two-level-nested
adjacency index. -/
def find3 (m : List (Id64 × List (Id64 × List (Id64 × StmtId)))) (a b c : Id64) :
    Option StmtId :=
  (alFind m a).bind (fun outer => (alFind outer b).bind (fun cell => alFind cell c))

/-- Binds `m[a][b][c]`, creating the intermediate maps when missing;
embeds the nil-map switch in `setLine`. -/
def insert3 (m : List (Id64 × List (Id64 × List (Id64 × StmtId)))) (a b c : Id64)
    (v : StmtId) : List (Id64 × List (Id64 × List (Id64 × StmtId))) :=
  let outer := (alFind m a).getD []
  let cell := (alFind outer b).getD []
  alInsert m a (alInsert outer b (alInsert cell c v))

theorem find3_insert3 (m : List (Id64 × List (Id64 × List (Id64 × StmtId))))
    (a b c : Id64) (v : StmtId) (x y z : Id64) :
    find3 (insert3 m a b c v) x y z =
      if x = a ∧ y = b ∧ z = c then some v else find3 m x y z := by
  unfold insert3 find3
  rw [alFind_insert]
  by_cases hx : x = a
  · subst hx
    rw [if_pos rfl]
    simp only [Option.some_bind]
    rw [alFind_insert]
    by_cases hy : y = b
    · subst hy
      rw [if_pos rfl]
      simp only [Option.some_bind]
      rw [alFind_insert]
      by_cases hz : z = c
      · simp [hz]
      · rw [if_neg hz, if_neg (by simp [hz])]
        cases hout : alFind m x with
        | none => simp [alFind]
        | some outer =>
          simp only [Option.getD_some, Option.some_bind]
          cases hcell : alFind outer y with
          | none => simp [alFind]
          | some cell => simp
    · rw [if_neg hy, if_neg (by simp [hy])]
      cases hout : alFind m x with
      | none => simp [alFind]
      | some outer => simp
  · rw [if_neg hx, if_neg (by simp [hx])]

/-! ### Store mutations, transcribed from the source -/

/-- Embeds `Graph.addNode`.  The node-ID collision panic is guarded by
an existence check at the only call site (`setLine`), so the panic
branch is unreachable and not modelled. -/
def addNode (g : Graph) (id : Id64) (t : Term) : Graph :=
  { g with nodes := alInsert g.nodes id t, ids := g.ids.use id }

/-- Embeds `Graph.addTerm`.  The argument is the statement's term
passed by pointer; the updated term is returned for the caller to
write back into the heap.  An ID collision is the `panic` in the
source, embedded as `Except.error`. -/
def addTerm (g : Graph) (t : Term) : Except String (Graph × Term) :=
  if t.uid = 0 then
    match alFind g.termIDs t.value with
    | some id => .ok (g, { t with uid := id })
    | none =>
      let id := g.ids.newID
      let g := { g with ids := g.ids.use id }
      .ok ({ g with termIDs := alInsert g.termIDs t.value id }, { t with uid := id })
  else
    match alFind g.termIDs t.value with
    | none => .ok ({ g with termIDs := alInsert g.termIDs t.value t.uid }, t)
    | some id =>
      if id = t.uid then .ok (g, t)
      else .error "gogo: term ID collision"

/-- Embeds `Graph.setLine`.  The statement itself is the line: its `From`
is the subject, its `To` the object and its line ID the predicate's
UID. -/
def setLine (g : Graph) (sid : StmtId) (s : Stmt) : Graph :=
  let fid := s.subject.uid
  let tid := s.object.uid
  let lid := s.predicate.uid
  let g := if alContains g.nodes fid then { g with nodes := alInsert g.nodes fid s.subject }
           else addNode g fid s.subject
  let g := if alContains g.nodes tid then { g with nodes := alInsert g.nodes tid s.object }
           else addNode g tid s.object
  let g := { g with fromIdx := insert3 g.fromIdx fid tid lid sid }
  let g := { g with toIdx := insert3 g.toIdx tid fid lid sid }
  { g with ids := g.ids.use lid }

/-- Embeds `Graph.AddStatement`.  A `panic` in the source is embedded
as `some message` in the first component, paired with the store and
heap state at the moment of the panic; `none` means the call
succeeded.  The transcription keeps the source's order: predicate
validation and the namespace-mode update, subject and object
validation, predicate-index registration (under the predicate UID the
statement carries at that point), interning of the three terms, and
finally `setLine`. -/
def addStatement (g : Graph) (h : Heap) (sid : StmtId) : Option String × Graph × Heap :=
  match alFind h sid with
  | none => (some "gogo: no such statement", g, h)
  | some s =>
    match parts s.predicate.value with
    | .error e => (some e, g, h)
    | .ok (text, kind) =>
      if kind ≠ Kind.iri then (some "gogo: predicate is not an IRI", g, h)
      else
        match
          (if strHas text "http:" then
            if g.nspace = localNS then none else some globalNS
          else
            if g.nspace = globalNS then none else some localNS) with
        | none => (some "gogo: namespace mode mismatch", g, h)
        | some ns =>
          let g := { g with nspace := ns }
          match parts s.subject.value with
          | .error e => (some e, g, h)
          | .ok (_, skind) =>
            if skind ≠ Kind.iri ∧ skind ≠ Kind.blank then
              (some "gogo: subject is not an IRI or blank node", g, h)
            else
              match parts s.object.value with
              | .error e => (some e, g, h)
              | .ok (_, okind) =>
                if okind = Kind.invalid then (some "gogo: object is not a valid term", g, h)
                else
                  let cell := (alFind g.pred s.predicate.uid).getD []
                  let cell := if sid ∈ cell then cell else sid :: cell
                  let g := { g with pred := alInsert g.pred s.predicate.uid cell }
                  match addTerm g s.subject with
                  | .error e => (some e, g, h)
                  | .ok (g, subj) =>
                    let s := { s with subject := subj }
                    let h := alInsert h sid s
                    match addTerm g s.predicate with
                    | .error e => (some e, g, h)
                    | .ok (g, prd) =>
                      let s := { s with predicate := prd }
                      let h := alInsert h sid s
                      match addTerm g s.object with
                      | .error e => (some e, g, h)
                      | .ok (g, obj) =>
                        let s := { s with object := obj }
                        let h := alInsert h sid s
                        (none, setLine g sid s, h)

/-- Embeds `Graph.removeLine`: deletes the line from the forward and
reverse indices, pruning an inner cell that becomes empty (the outer
per-node entry is left in place, as in the source), and releases the
line handle. -/
def removeLine (g : Graph) (fid tid lid : Id64) : Graph :=
  if ¬ alContains g.nodes fid then g
  else if ¬ alContains g.nodes tid then g
  else
    let fromIdx := mapUpdate g.fromIdx fid (fun outer =>
      match alFind outer tid with
      | none => outer
      | some cell =>
        let cell := alErase cell lid
        if cell.isEmpty then alErase outer tid else alInsert outer tid cell)
    let toIdx := mapUpdate g.toIdx tid (fun outer =>
      match alFind outer fid with
      | none => outer
      | some cell =>
        let cell := alErase cell lid
        if cell.isEmpty then alErase outer fid else alInsert outer fid cell)
    { g with fromIdx := fromIdx, toIdx := toIdx, ids := g.ids.release lid }

/-- Embeds `Graph.removeNode`, in the source's order: drop the node,
delete the mirror cells of its outgoing edges, drop its forward entry,
delete the mirror cells of its incoming edges (read after the forward
pass, as in the source), drop its reverse entry, release the
handle. -/
def removeNode (g : Graph) (id : Id64) : Graph :=
  if ¬ alContains g.nodes id then g
  else
    let g := { g with nodes := alErase g.nodes id }
    let outs := alKeys ((alFind g.fromIdx id).getD [])
    let g := { g with
      toIdx := outs.foldl (fun m v => mapUpdate m v (fun outer => alErase outer id)) g.toIdx }
    let g := { g with fromIdx := alErase g.fromIdx id }
    let ins := alKeys ((alFind g.toIdx id).getD [])
    let g := { g with
      fromIdx := ins.foldl (fun m u => mapUpdate m u (fun outer => alErase outer id)) g.fromIdx }
    let g := { g with toIdx := alErase g.toIdx id }
    { g with ids := g.ids.release id }

/-- Number of distinct out-neighbours of a node; embeds
`g.From(id).Len()` (the per-node forward entry's key count, zero for a
missing entry). -/
def outLen (g : Graph) (id : Id64) : Nat :=
  ((alFind g.fromIdx id).getD []).length

/-- Number of distinct in-neighbours of a node; embeds
`g.To(id).Len()`. -/
def inLen (g : Graph) (id : Id64) : Nat :=
  ((alFind g.toIdx id).getD []).length

/-- Predicate-index bookkeeping step of `RemoveStatement`: delete the
instance from the predicate's statement set; when the set empties,
drop the predicate entry and, if the predicate has no forward
adjacency of its own, release its handle and un-intern its value. -/
def predCleanup (g : Graph) (s : Stmt) (sid : StmtId) : Graph :=
  let cell := ((alFind g.pred s.predicate.uid).getD []).filter (· ≠ sid)
  if cell.isEmpty then
    let g := { g with pred := alErase g.pred s.predicate.uid }
    if outLen g s.predicate.uid = 0 then
      { g with ids := g.ids.release s.predicate.uid
               termIDs := alErase g.termIDs s.predicate.value }
    else g
  else { g with pred := alInsert g.pred s.predicate.uid cell }

/-- Orphan-cleanup step of `RemoveStatement`: a terminal node left with
no forward and no reverse adjacency is removed and its value
un-interned. -/
def orphanCleanup (g : Graph) (t : Term) : Graph :=
  if outLen g t.uid = 0 ∧ inLen g t.uid = 0 then
    { removeNode g t.uid with termIDs := alErase g.termIDs t.value }
  else g

/-- Embeds `Graph.RemoveStatement`.  Membership in the predicate index
is tested on the statement instance (`g.pred[s.Predicate.UID][s]`), so
a statement that is not the recorded instance is a no-op. -/
def removeStatement (g : Graph) (h : Heap) (sid : StmtId) : Graph × Heap :=
  match alFind h sid with
  | none => (g, h)
  | some s =>
    if ¬ sid ∈ (alFind g.pred s.predicate.uid).getD [] then (g, h)
    else
      let g := removeLine g s.subject.uid s.object.uid s.predicate.uid
      let g := predCleanup g s sid
      let g := orphanCleanup g s.subject
      let g := orphanCleanup g s.object
      (g, h)

/-- Embeds `Graph.RemoveTerm`.  Go iterates live map views while
`RemoveStatement` deletes from them; the mutation is deletion-only, so
iterating a snapshot of the keys and re-reading each cell (as
`g.Lines` does, copying into a slice) is observationally equivalent.
The reverse-adjacency pass is transcribed as in the source: an `if`,
so only the first in-neighbour is processed. -/
def removeTerm (g : Graph) (h : Heap) (t : Term) : Graph × Heap :=
  -- Remove any predicates.
  let gh :=
    match alFind g.pred t.uid with
    | some sids => sids.foldl (fun (gh : Graph × Heap) sid => removeStatement gh.1 gh.2 sid) (g, h)
    | none => (g, h)
  let g := gh.1
  let h := gh.2
  -- Quick return.
  if ¬ alContains g.nodes t.uid ∧ ¬ alContains g.fromIdx t.uid ∧ ¬ alContains g.toIdx t.uid
  then (g, h)
  else
    -- Remove any statements from the term.
    let outs := alKeys ((alFind g.fromIdx t.uid).getD [])
    let gh := outs.foldl (fun (gh : Graph × Heap) o =>
      let cell : List (Id64 × StmtId) := (alFind ((alFind gh.1.fromIdx t.uid).getD []) o).getD []
      (cell.map Prod.snd).foldl (fun (gh : Graph × Heap) sid => removeStatement gh.1 gh.2 sid) gh) (g, h)
    let g := gh.1
    let h := gh.2
    -- Remove statements to the term: the source tests `if from.Next()`
    -- rather than looping, so only the first in-neighbour is handled.
    let gh :=
      match alKeys ((alFind g.toIdx t.uid).getD []) with
      | [] => (g, h)
      | u :: _ =>
        let cell : List (Id64 × StmtId) := (alFind ((alFind g.fromIdx u).getD []) t.uid).getD []
        (cell.map Prod.snd).foldl (fun (gh : Graph × Heap) sid => removeStatement gh.1 gh.2 sid) (g, h)
    let g := gh.1
    let h := gh.2
    -- Remove the node.
    let g := removeNode g t.uid
    ({ g with termIDs := alErase g.termIDs t.value }, h)

/-- One mutating call on the store: the three public mutators. -/
inductive Op where
  | add (sid : StmtId)
  | removeStmt (sid : StmtId)
  | removeTrm (t : Term)
deriving DecidableEq, Repr

/-- Applies one mutating call.  A failed `AddStatement` panics in Go;
the store is left in the state it had at the panic, which `applyOp`
keeps. -/
def applyOp (gh : Graph × Heap) : Op → Graph × Heap
  | .add sid => (addStatement gh.1 gh.2 sid).2
  | .removeStmt sid => removeStatement gh.1 gh.2 sid
  | .removeTrm t => removeTerm gh.1 gh.2 t

/-- State of the store after a sequence of mutating calls on a fresh
graph, with `h0` the decoded statement instances. -/
def build (ops : List Op) (h0 : Heap) : Graph × Heap :=
  ops.foldl applyOp (newGraph, h0)

/-! ### Read-only views -/

/-- Embeds `Graph.Lines(uid, vid)`: the lines of one adjacency cell,
copied out as a slice. -/
def linesOf (g : Graph) (u v : Id64) : List StmtId :=
  ((alFind ((alFind g.fromIdx u).getD []) v).getD []).map (·.2)

/-- Embeds `Graph.TermFor`: resolves interned text through the node
table, falling back to the predicate index for predicate-only terms. -/
def termFor (g : Graph) (h : Heap) (text : String) : Option Term :=
  match alFind g.termIDs text with
  | none => none
  | some id =>
    match alFind g.nodes id with
    | some t => some t
    | none =>
      match alFind g.pred id with
      | none => none
      | some sids =>
        match sids.head? with
        | none => none
        | some sid => (alFind h sid).map (·.predicate)

/-- Statement values carried by the `u → v` adjacency cell, read
through the heap; the lines of `g.Edge(u, v)` as seen by
`ConnectedByAny`. -/
def cellStmts (g : Graph) (h : Heap) (u v : Id64) : List Stmt :=
  (linesOf g u v).filterMap (alFind h)

/-! ### The forward/reverse mirror invariant (C1) -/

/-- The forward and reverse adjacency indices are exact mirrors: a line
is recorded at `from[s][o][l]` exactly when it is recorded at
`to[o][s][l]`. -/
def Mirror (g : Graph) : Prop :=
  ∀ s o l : Id64, find3 g.fromIdx s o l = find3 g.toIdx o s l

theorem mirror_congr {g g' : Graph} (hf : g'.fromIdx = g.fromIdx)
    (ht : g'.toIdx = g.toIdx) (hm : Mirror g) : Mirror g' := by
  intro s o l
  rw [hf, ht]
  exact hm s o l

theorem alErase_idem {κ α : Type} [DecidableEq κ] (m : List (κ × α)) (k : κ) :
    alErase (alErase m k) k = alErase m k := by
  unfold alErase
  rw [List.filter_filter]
  simp

theorem alFind_eq_none_of_erase_nil {κ α : Type} [DecidableEq κ]
    {m : List (κ × α)} {k : κ} (h : alErase m k = []) (z : κ) (hz : ¬ z = k) :
    alFind m z = none := by
  have := alFind_erase m k z
  rw [h, if_neg hz] at this
  exact this.symm

theorem find3_erase (m : List (Id64 × List (Id64 × List (Id64 × StmtId))))
    (id x y z : Id64) :
    find3 (alErase m id) x y z = if x = id then none else find3 m x y z := by
  unfold find3
  rw [alFind_erase]
  by_cases hx : x = id
  · simp [hx]
  · rw [if_neg hx, if_neg hx]

theorem find3_removeCell (m : List (Id64 × List (Id64 × List (Id64 × StmtId))))
    (fid tid lid x y z : Id64) :
    find3 (mapUpdate m fid (fun outer =>
        match alFind outer tid with
        | none => outer
        | some cell =>
          let cell := alErase cell lid
          if cell.isEmpty then alErase outer tid else alInsert outer tid cell)) x y z =
      if x = fid ∧ y = tid ∧ z = lid then none else find3 m x y z := by
  unfold find3
  rw [alFind_mapUpdate]
  by_cases hx : x = fid
  case neg => rw [if_neg hx, if_neg (fun hcon => hx hcon.1)]
  case pos =>
    rw [if_pos hx]
    cases hout : alFind m fid with
    | none =>
      rw [hx, hout]
      simp only [Option.map_none', Option.none_bind]
      by_cases hc : x = fid ∧ y = tid ∧ z = lid <;> simp [hc]
    | some outer =>
      rw [hx, hout]
      simp only [Option.map_some', Option.some_bind]
      cases hcell : alFind outer tid with
      | none =>
        dsimp only
        by_cases hy : y = tid
        · by_cases hz : z = lid
          · rw [if_pos ⟨trivial, hy, hz⟩, hy, hcell]
            simp
          · rw [if_neg (fun hcon => hz hcon.2.2)]
        · rw [if_neg (fun hcon => hy hcon.2.1)]
      | some cell =>
        dsimp only
        by_cases hemp : (alErase cell lid).isEmpty
        · rw [if_pos hemp, alFind_erase]
          by_cases hy : y = tid
          · rw [if_pos hy, hy, hcell]
            simp only [Option.none_bind, Option.some_bind]
            by_cases hz : z = lid
            · rw [if_pos ⟨trivial, trivial, hz⟩]
            · rw [if_neg (fun hcon => hz hcon.2.2),
                alFind_eq_none_of_erase_nil (List.isEmpty_iff.mp hemp) z hz]
          · rw [if_neg hy, if_neg (fun hcon => hy hcon.2.1)]
        · rw [if_neg hemp, alFind_insert]
          by_cases hy : y = tid
          · rw [if_pos hy, hy, hcell]
            simp only [Option.some_bind]
            rw [alFind_erase]
            by_cases hz : z = lid
            · rw [if_pos hz, if_pos ⟨trivial, trivial, hz⟩]
            · rw [if_neg hz, if_neg (fun hcon => hz hcon.2.2)]
          · rw [if_neg hy, if_neg (fun hcon => hy hcon.2.1)]

theorem alFind_foldl_eraseInner {β : Type}
    (vs : List Id64) (m : List (Id64 × List (Id64 × β))) (id : Id64) (a : Id64) :
    alFind (vs.foldl (fun m v => mapUpdate m v (fun outer => alErase outer id)) m) a =
      if a ∈ vs then (alFind m a).map (fun outer => alErase outer id) else alFind m a := by
  induction vs generalizing m with
  | nil => simp
  | cons v vs ih =>
    simp only [List.foldl_cons]
    rw [ih, alFind_mapUpdate]
    by_cases hv : a = v
    · subst hv
      by_cases hm : a ∈ vs
      · rw [if_pos hm, if_pos rfl, if_pos (by simp)]
        cases alFind m a with
        | none => simp
        | some outer => simp [alErase_idem]
      · rw [if_neg hm, if_pos rfl, if_pos (by simp)]
    · by_cases hm : a ∈ vs
      · rw [if_pos hm, if_neg hv, if_pos (by simp [hm])]
      · rw [if_neg hm, if_neg hv, if_neg (by simp [hv, hm])]

theorem find3_foldl_eraseInner (vs : List Id64)
    (m : List (Id64 × List (Id64 × List (Id64 × StmtId)))) (id x y z : Id64) :
    find3 (vs.foldl (fun m v => mapUpdate m v (fun outer => alErase outer id)) m) x y z =
      if x ∈ vs ∧ y = id then none else find3 m x y z := by
  unfold find3
  rw [alFind_foldl_eraseInner]
  by_cases hx : x ∈ vs
  · rw [if_pos hx]
    cases hout : alFind m x with
    | none =>
      simp only [Option.map_none', Option.none_bind]
      by_cases hc : x ∈ vs ∧ y = id <;> simp [hc]
    | some outer =>
      simp only [Option.map_some', Option.some_bind]
      rw [alFind_erase]
      by_cases hy : y = id
      · simp [hy, hx]
      · rw [if_neg hy, if_neg (by simp [hy])]
  · rw [if_neg hx, if_neg (by simp [hx])]

theorem alFind_eq_none_of_not_mem_keys {κ α : Type} [DecidableEq κ]
    {m : List (κ × α)} {k : κ} (h : ¬ k ∈ alKeys m) : alFind m k = none := by
  induction m with
  | nil => rfl
  | cons e tl ih =>
    obtain ⟨a, b⟩ := e
    rw [alFind_cons]
    have ha : ¬ a = k := fun hak => h (by simp [alKeys, hak])
    rw [if_neg ha]
    exact ih (fun hk => h (by simp [alKeys] at hk ⊢; exact Or.inr hk))

theorem mem_keys_of_alFind_some {κ α : Type} [DecidableEq κ]
    {m : List (κ × α)} {k : κ} {v : α} (h : alFind m k = some v) : k ∈ alKeys m := by
  by_contra hk
  rw [alFind_eq_none_of_not_mem_keys hk] at h
  exact Option.noConfusion h

theorem mem_keys_alErase {κ α : Type} [DecidableEq κ]
    {m : List (κ × α)} {k k' : κ} (hne : ¬ k' = k) :
    k' ∈ alKeys (alErase m k) ↔ k' ∈ alKeys m := by
  unfold alErase alKeys
  constructor
  · intro h
    obtain ⟨e, he, heq⟩ := List.mem_map.mp h
    exact List.mem_map.mpr ⟨e, (List.mem_filter.mp he).1, heq⟩
  · intro h
    obtain ⟨e, he, heq⟩ := List.mem_map.mp h
    refine List.mem_map.mpr ⟨e, List.mem_filter.mpr ⟨he, ?_⟩, heq⟩
    simp only [decide_eq_true_eq]
    intro hek
    exact hne (heq ▸ hek ▸ rfl)

/-! ### Mirror preservation through every mutating call -/

theorem mirror_newGraph : Mirror newGraph := by
  intro s o l
  rfl

theorem setLine_fromIdx (g : Graph) (sid : StmtId) (st : Stmt) :
    (setLine g sid st).fromIdx =
      insert3 g.fromIdx st.subject.uid st.object.uid st.predicate.uid sid := by
  unfold setLine addNode
  dsimp only
  split_ifs <;> rfl

theorem setLine_toIdx (g : Graph) (sid : StmtId) (st : Stmt) :
    (setLine g sid st).toIdx =
      insert3 g.toIdx st.object.uid st.subject.uid st.predicate.uid sid := by
  unfold setLine addNode
  dsimp only
  split_ifs <;> rfl

theorem mirror_setLine {g : Graph} (hm : Mirror g) (sid : StmtId) (st : Stmt) :
    Mirror (setLine g sid st) := by
  intro s o l
  rw [setLine_fromIdx, setLine_toIdx, find3_insert3, find3_insert3]
  by_cases hc : s = st.subject.uid ∧ o = st.object.uid ∧ l = st.predicate.uid
  · rw [if_pos hc, if_pos ⟨hc.2.1, hc.1, hc.2.2⟩]
  · rw [if_neg hc, if_neg (fun hcon => hc ⟨hcon.2.1, hcon.1, hcon.2.2⟩)]
    exact hm s o l

theorem mirror_removeLine {g : Graph} (hm : Mirror g) (fid tid lid : Id64) :
    Mirror (removeLine g fid tid lid) := by
  unfold removeLine
  split
  · exact hm
  · split
    · exact hm
    · intro s o l
      dsimp only
      rw [find3_removeCell, find3_removeCell]
      by_cases hc : s = fid ∧ o = tid ∧ l = lid
      · rw [if_pos hc, if_pos ⟨hc.2.1, hc.1, hc.2.2⟩]
      · rw [if_neg hc, if_neg (fun hcon => hc ⟨hcon.2.1, hcon.1, hcon.2.2⟩)]
        exact hm s o l

theorem mirror_removeNode {g : Graph} (hm : Mirror g) (id : Id64) :
    Mirror (removeNode g id) := by
  unfold removeNode
  split
  · exact hm
  · intro s o l
    dsimp only
    rw [find3_foldl_eraseInner, find3_erase, find3_erase, find3_foldl_eraseInner]
    set outs := alKeys ((alFind g.fromIdx id).getD []) with houts
    set P1 := outs.foldl (fun m v => mapUpdate m v (fun outer => alErase outer id)) g.toIdx
      with hP1
    set ins := alKeys ((alFind P1 id).getD []) with hins
    by_cases hs : s = id
    · -- Left side is none; show the right side is none as well.
      have hrhs : (if o = id then none
          else if o ∈ outs ∧ s = id then none else find3 g.toIdx o s l) = none := by
        by_cases ho : o = id
        · rw [if_pos ho]
        · rw [if_neg ho]
          by_cases hout : o ∈ outs ∧ s = id
          · rw [if_pos hout]
          · rw [if_neg hout]
            have hnotk : ¬ o ∈ outs := fun hk => hout ⟨hk, hs⟩
            rw [← hm s o l]
            unfold find3
            rw [hs]
            cases hfo : alFind g.fromIdx id with
            | none => rfl
            | some outer =>
              have hoo : ¬ o ∈ alKeys outer := by
                intro hk
                exact hnotk (by rw [houts, hfo]; exact hk)
              simp only [Option.some_bind]
              rw [alFind_eq_none_of_not_mem_keys hoo]
              rfl
      rw [hrhs]
      by_cases h1 : s ∈ ins ∧ o = id
      · rw [if_pos h1]
      · rw [if_neg h1, if_pos hs]
    · by_cases ho : o = id
      · -- Right side is none; the reverse entry for `id` lost key `s`,
        -- so mirror symmetry empties the forward side too.
        rw [if_pos ho]
        by_cases hin : s ∈ ins ∧ o = id
        · rw [if_pos hin]
        · rw [if_neg hin, if_neg hs]
          have hsnot : ¬ s ∈ ins := fun hk => hin ⟨hk, ho⟩
          rw [hm s o l, ho]
          unfold find3
          have hP1id := alFind_foldl_eraseInner outs g.toIdx id id
          rw [← hP1] at hP1id
          by_cases hself : id ∈ outs
          · rw [if_pos hself] at hP1id
            cases hto : alFind g.toIdx id with
            | none => rfl
            | some outer =>
              rw [hto] at hP1id
              simp only [Option.map_some'] at hP1id
              have hkeys : ins = alKeys (alErase outer id) := by
                rw [hins, hP1id]
                rfl
              have hsout : ¬ s ∈ alKeys outer := by
                intro hk
                exact hsnot (by rw [hkeys]; exact (mem_keys_alErase hs).mpr hk)
              simp only [Option.some_bind]
              rw [alFind_eq_none_of_not_mem_keys hsout]
              rfl
          · rw [if_neg hself] at hP1id
            cases hto : alFind g.toIdx id with
            | none => rfl
            | some outer =>
              rw [hto] at hP1id
              have hsout : ¬ s ∈ alKeys outer := by
                intro hk
                exact hsnot (by rw [hins, hP1id]; exact hk)
              simp only [Option.some_bind]
              rw [alFind_eq_none_of_not_mem_keys hsout]
              rfl
      · rw [if_neg (fun hcon => ho hcon.2), if_neg hs, if_neg ho,
          if_neg (fun hcon => hs hcon.2)]
        exact hm s o l

theorem addTerm_idx {g : Graph} {t : Term} {r : Graph × Term}
    (h : addTerm g t = .ok r) : r.1.fromIdx = g.fromIdx ∧ r.1.toIdx = g.toIdx := by
  unfold addTerm at h
  split at h
  · split at h
    · cases h
      exact ⟨rfl, rfl⟩
    · cases h
      exact ⟨rfl, rfl⟩
  · split at h
    · cases h
      exact ⟨rfl, rfl⟩
    · split at h
      · cases h
        exact ⟨rfl, rfl⟩
      · cases h

theorem predCleanup_idx (g : Graph) (s : Stmt) (sid : StmtId) :
    (predCleanup g s sid).fromIdx = g.fromIdx ∧ (predCleanup g s sid).toIdx = g.toIdx := by
  unfold predCleanup
  dsimp only
  split_ifs <;> exact ⟨rfl, rfl⟩

theorem mirror_orphanCleanup {g : Graph} (hm : Mirror g) (t : Term) :
    Mirror (orphanCleanup g t) := by
  unfold orphanCleanup
  split_ifs
  · exact mirror_congr rfl rfl (mirror_removeNode hm _)
  · exact hm

theorem mirror_addStatement {g : Graph} (hm : Mirror g) (h : Heap) (sid : StmtId) :
    Mirror (addStatement g h sid).2.1 := by
  unfold addStatement
  split
  · exact hm
  next s heq =>
    split
    · exact hm
    next text kind heqp =>
      split
      · exact hm
      · split
        · exact hm
        next ns heqn =>
          try dsimp only
          split
          · exact hm
          next skind heqs =>
            split
            · exact hm
            · split
              · exact hm
              next okind heqo =>
                split
                · exact hm
                · try dsimp only
                  split
                  · exact mirror_congr rfl rfl hm
                  next g1 subj heqt =>
                    try dsimp only
                    split
                    · exact mirror_congr (addTerm_idx heqt).1 (addTerm_idx heqt).2
                        (mirror_congr rfl rfl hm)
                    next g2 prd heqt2 =>
                      try dsimp only
                      split
                      · exact mirror_congr (addTerm_idx heqt2).1 (addTerm_idx heqt2).2
                          (mirror_congr (addTerm_idx heqt).1 (addTerm_idx heqt).2
                            (mirror_congr rfl rfl hm))
                      next g3 obj heqt3 =>
                        try dsimp only
                        exact mirror_setLine
                          (mirror_congr (addTerm_idx heqt3).1 (addTerm_idx heqt3).2
                            (mirror_congr (addTerm_idx heqt2).1 (addTerm_idx heqt2).2
                              (mirror_congr (addTerm_idx heqt).1 (addTerm_idx heqt).2
                                (mirror_congr rfl rfl hm)))) _ _

theorem mirror_removeStatement {g : Graph} (hm : Mirror g) (h : Heap) (sid : StmtId) :
    Mirror (removeStatement g h sid).1 := by
  unfold removeStatement
  split
  · exact hm
  next s heq =>
    split
    · exact hm
    · have hm1 : Mirror (removeLine g s.subject.uid s.object.uid s.predicate.uid) :=
        mirror_removeLine hm _ _ _
      exact mirror_orphanCleanup (mirror_orphanCleanup
        (mirror_congr (predCleanup_idx _ s sid).1 (predCleanup_idx _ s sid).2 hm1) _) _

theorem mirror_fold_removeStatement {start : Graph × Heap} (hm : Mirror start.1)
    (sids : List StmtId) :
    Mirror ((sids.foldl (fun (gh : Graph × Heap) sid => removeStatement gh.1 gh.2 sid)
      start)).1 := by
  induction sids generalizing start with
  | nil => exact hm
  | cons sid tl ih =>
    simp only [List.foldl_cons]
    exact ih (mirror_removeStatement hm _ _)

theorem mirror_fold_removeStatement2 {start : Graph × Heap} (hm : Mirror start.1)
    (t : Term) (outs : List Id64) :
    Mirror ((outs.foldl (fun (gh : Graph × Heap) o =>
      let cell : List (Id64 × StmtId) := (alFind ((alFind gh.1.fromIdx t.uid).getD []) o).getD []
      (cell.map Prod.snd).foldl (fun (gh : Graph × Heap) sid => removeStatement gh.1 gh.2 sid) gh)
      start)).1 := by
  induction outs generalizing start with
  | nil => exact hm
  | cons o tl ih =>
    simp only [List.foldl_cons]
    exact ih (mirror_fold_removeStatement hm _)

theorem mirror_removeTerm {g : Graph} (hm : Mirror g) (h : Heap) (t : Term) :
    Mirror (removeTerm g h t).1 := by
  unfold removeTerm
  have hm1 : Mirror (match alFind g.pred t.uid with
      | some sids => sids.foldl (fun (gh : Graph × Heap) sid => removeStatement gh.1 gh.2 sid)
          (g, h)
      | none => (g, h)).1 := by
    split
    · exact mirror_fold_removeStatement hm _
    · exact hm
  dsimp only
  split
  · exact hm1
  · apply mirror_congr rfl rfl
    apply mirror_removeNode
    split
    · exact mirror_fold_removeStatement2 hm1 t _
    · exact mirror_fold_removeStatement (mirror_fold_removeStatement2 hm1 t _) _

theorem mirror_applyOp {gh : Graph × Heap} (hm : Mirror gh.1) (op : Op) :
    Mirror (applyOp gh op).1 := by
  cases op with
  | add sid => exact mirror_addStatement hm gh.2 sid
  | removeStmt sid => exact mirror_removeStatement hm gh.2 sid
  | removeTrm t => exact mirror_removeTerm hm gh.2 t

/-- C1.  For every graph built by any sequence of `AddStatement`,
`RemoveStatement` and `RemoveTerm` calls, the forward and reverse
adjacency indices are exact mirrors: a line `l` from subject `s` to
object `o` is present at `from[s][o][l]` if and only if it is present
at `to[o][s][l]` (as recorded line values, they agree exactly). -/
theorem forward_reverse_mirror (ops : List Op) (h0 : Heap) (s o l : Id64) :
    find3 (build ops h0).1.fromIdx s o l = find3 (build ops h0).1.toIdx o s l := by
  suffices hM : Mirror (build ops h0).1 from hM s o l
  unfold build
  induction ops generalizing h0 with
  | nil => exact mirror_newGraph
  | cons op tl ih =>
    simp only [List.foldl_cons]
    have h1 : Mirror (applyOp (newGraph, h0) op).1 := mirror_applyOp mirror_newGraph op
    -- Continue the fold from the new state.
    clear ih
    generalize (applyOp (newGraph, h0) op) = gh at h1 ⊢
    induction tl generalizing gh with
    | nil => exact h1
    | cons op2 tl2 ih2 =>
      simp only [List.foldl_cons]
      exact ih2 _ (mirror_applyOp h1 op2)

/-! ### The query algebra

`Query` holds a graph pointer and a frontier slice.  The graph pointer
is embedded as an identity token `gid`; `sort.Sort(byID(...))` sorts
the shared backing array in place, embedded by returning the
receiver's and argument's post-call frontiers alongside the result.
Go's sort is unstable, so any handle-sorted permutation is a faithful
outcome; the model uses insertion sort. -/

/-- Embeds `Query`. -/
structure QueryS where
  gid : Nat
  terms : List Term
deriving DecidableEq, Repr

/-- Embeds `sort.Sort(byID(terms))`: sorting the frontier by term ID. -/
def sortByID (l : List Term) : List Term :=
  l.insertionSort (fun a b => a.uid ≤ b.uid)

/-- Merge loop of `Query.And` over the two sorted frontiers. -/
def andLoop : List Term → List Term → List Term
  | qi :: qs, pj :: ps =>
    if qi.uid < pj.uid then andLoop qs (pj :: ps)
    else if pj.uid < qi.uid then andLoop (qi :: qs) ps
    else qi :: andLoop qs (ps : List Term)
  | _, _ => []
termination_by l1 l2 => l1.length + l2.length

/-- Merge loop of `Query.Or`, carrying the UID of the last term
appended to the output for the adjacent-duplicate check; when either
side is exhausted the trailing remainders of both are appended without
that check, as in the source. -/
def orLoop (last : Option Id64) : List Term → List Term → List Term
  | qi :: qs, pj :: ps =>
    if qi.uid < pj.uid then
      if last.all (· ≠ qi.uid) then qi :: orLoop (some qi.uid) qs (pj :: ps)
      else orLoop last qs (pj :: ps)
    else if pj.uid < qi.uid then
      if last.all (· ≠ pj.uid) then pj :: orLoop (some pj.uid) (qi :: qs) ps
      else orLoop last (qi :: qs) ps
    else
      if last.all (· ≠ qi.uid) then qi :: orLoop (some qi.uid) qs ps
      else orLoop last qs ps
  | qs, ps => qs ++ ps
termination_by l1 l2 => l1.length + l2.length

/-- Merge loop of `Query.Not`: returns the kept terms and the number
of receiver terms consumed (the source's `i`).  On an equal handle the
receiver index advances but the argument index does not, as in the
source. -/
def notLoop : List Term → List Term → List Term × Nat
  | qi :: qs, pj :: ps =>
    if qi.uid < pj.uid then
      let r := notLoop qs (pj :: ps)
      (qi :: r.1, r.2 + 1)
    else if pj.uid < qi.uid then notLoop (qi :: qs) ps
    else
      let r := notLoop qs (pj :: ps)
      (r.1, r.2 + 1)
  | _, _ => ([], 0)
termination_by l1 l2 => l1.length + l2.length

/-- Embeds `Query.And`: panics when the operands come from distinct
graphs, sorts both frontiers in place, then merge-intersects.  Returns
the result together with the post-call receiver and argument. -/
def queryAnd (q p : QueryS) : Except String (QueryS × QueryS × QueryS) :=
  if q.gid ≠ p.gid then
    .error "gogo: binary query operation parameters from distinct graphs"
  else
    .ok (⟨q.gid, andLoop (sortByID q.terms) (sortByID p.terms)⟩,
      ⟨q.gid, sortByID q.terms⟩, ⟨p.gid, sortByID p.terms⟩)

/-- Embeds `Query.Or`, in the same shape as `queryAnd`. -/
def queryOr (q p : QueryS) : Except String (QueryS × QueryS × QueryS) :=
  if q.gid ≠ p.gid then
    .error "gogo: binary query operation parameters from distinct graphs"
  else
    .ok (⟨q.gid, orLoop none (sortByID q.terms) (sortByID p.terms)⟩,
      ⟨q.gid, sortByID q.terms⟩, ⟨p.gid, sortByID p.terms⟩)

/-- Embeds `Query.Not`: the merge loop followed by the guarded
trailing append `q.terms[i : len(q.terms)+min(0, i-len(r.terms))]`. -/
def queryNotTerms (qs ps : List Term) : List Term :=
  let s := sortByID qs
  let t := sortByID ps
  let r := notLoop s t
  if r.1.length < s.length then
    r.1 ++ (s.drop r.2).take
      (((s.length : Int) + min 0 ((r.2 : Int) - (r.1.length : Int)) - (r.2 : Int)).toNat)
  else r.1

/-- Embeds `Query.Not` at the `Query` level. -/
def queryNot (q p : QueryS) : Except String (QueryS × QueryS × QueryS) :=
  if q.gid ≠ p.gid then
    .error "gogo: binary query operation parameters from distinct graphs"
  else
    .ok (⟨q.gid, queryNotTerms q.terms p.terms⟩,
      ⟨q.gid, sortByID q.terms⟩, ⟨p.gid, sortByID p.terms⟩)

/-- Adjacent-duplicate removal pass of `Query.Unique` over the sorted
frontier: keep element `i` when `i = 0` or its UID differs from that
of element `i-1` of the input. -/
def dedupAdj : List Term → List Term
  | [] => []
  | t :: ts => t :: dedupAdjAux t ts
where
  dedupAdjAux (prev : Term) : List Term → List Term
    | [] => []
    | t :: ts => if t.uid ≠ prev.uid then t :: dedupAdjAux t ts else dedupAdjAux t ts

/-- Embeds `Query.Unique`: sorts the receiver's frontier in place and
returns a copy with adjacent duplicates removed, paired with the
post-call receiver. -/
def queryUnique (q : QueryS) : QueryS × QueryS :=
  (⟨q.gid, dedupAdj (sortByID q.terms)⟩, ⟨q.gid, sortByID q.terms⟩)

/-- Embeds `Query.Out`: neighbours reachable out of the frontier via a
statement satisfying `fn`; the receiver is read, never written. -/
def outTerms (g : Graph) (h : Heap) (terms : List Term) (fn : Stmt → Bool) : List Term :=
  terms.flatMap (fun s => (alKeys ((alFind g.fromIdx s.uid).getD [])).filterMap (fun v =>
    if (cellStmts g h s.uid v).any fn then some ((alFind g.nodes v).getD ⟨"", 0⟩) else none))

/-- Embeds `Query.Out` at the `Query` level, returning the result and
the (unchanged) receiver. -/
def queryOut (g : Graph) (h : Heap) (q : QueryS) (fn : Stmt → Bool) : QueryS × QueryS :=
  (⟨q.gid, outTerms g h q.terms fn⟩, q)

/-- Embeds `Query.In`: neighbours reaching into the frontier via a
statement satisfying `fn`. -/
def inTerms (g : Graph) (h : Heap) (terms : List Term) (fn : Stmt → Bool) : List Term :=
  terms.flatMap (fun s => (alKeys ((alFind g.toIdx s.uid).getD [])).filterMap (fun v =>
    if (cellStmts g h v s.uid).any fn then some ((alFind g.nodes v).getD ⟨"", 0⟩) else none))

/-- Embeds `Query.In` at the `Query` level. -/
def queryIn (g : Graph) (h : Heap) (q : QueryS) (fn : Stmt → Bool) : QueryS × QueryS :=
  (⟨q.gid, inTerms g h q.terms fn⟩, q)

/-- Handle-membership of a term in a frontier, by UID. -/
def memUid (x : Term) (l : List Term) : Bool :=
  l.any (fun y => y.uid == x.uid)

/-! ### Query algebra lemmas -/

/-- Ordering of frontiers used by `byID`. -/
def uidLE (a b : Term) : Prop := a.uid ≤ b.uid

instance : DecidableRel uidLE := fun a b => Int.decLe a.uid b.uid

instance : IsTotal Term uidLE := ⟨fun a b => Int.le_total a.uid b.uid⟩

instance : IsTrans Term uidLE := ⟨fun _ _ _ hab hbc => le_trans hab hbc⟩

theorem sortByID_eq (l : List Term) : sortByID l = l.insertionSort uidLE := rfl

theorem sortByID_perm (l : List Term) : (sortByID l).Perm l :=
  List.perm_insertionSort uidLE l

theorem sortByID_sorted (l : List Term) : List.Pairwise uidLE (sortByID l) :=
  List.sorted_insertionSort uidLE l

theorem memUid_perm {l1 l2 : List Term} (hp : l1.Perm l2) (x : Term) :
    memUid x l1 = memUid x l2 := by
  unfold memUid
  rw [Bool.eq_iff_iff]
  simp only [List.any_eq_true]
  exact ⟨fun ⟨y, hy, he⟩ => ⟨y, hp.mem_iff.mp hy, he⟩,
    fun ⟨y, hy, he⟩ => ⟨y, hp.mem_iff.mpr hy, he⟩⟩

theorem andLoop_self : ∀ l : List Term, andLoop l l = l := by
  intro l
  induction l with
  | nil => simp [andLoop]
  | cons x xs ih =>
    unfold andLoop
    rw [if_neg (lt_irrefl x.uid), if_neg (lt_irrefl x.uid), ih]

theorem dedupAdjAux_eq_self (ts : List Term) : ∀ prev : Term,
    List.Pairwise (fun a b : Term => a.uid ≠ b.uid) (prev :: ts) →
    dedupAdj.dedupAdjAux prev ts = ts := by
  induction ts with
  | nil => intro prev _; rfl
  | cons t ts ih =>
    intro prev hp
    have h1 := List.pairwise_cons.mp hp
    have hne : t.uid ≠ prev.uid := Ne.symm (h1.1 t (by simp))
    unfold dedupAdj.dedupAdjAux
    rw [if_pos hne, ih t h1.2]

theorem dedupAdj_eq_self {l : List Term}
    (hp : List.Pairwise (fun a b : Term => a.uid ≠ b.uid) l) : dedupAdj l = l := by
  cases l with
  | nil => rfl
  | cons t ts =>
    rw [show dedupAdj (t :: ts) = t :: dedupAdj.dedupAdjAux t ts from rfl,
      dedupAdjAux_eq_self ts t hp]

theorem notLoop_len (s t : List Term) :
    (notLoop s t).1.length ≤ (notLoop s t).2 ∧ (notLoop s t).2 ≤ s.length := by
  induction s, t using notLoop.induct with
  | case1 qi qs pj ps h1 ih =>
    rw [notLoop]
    simp only [if_pos h1, List.length_cons]
    exact ⟨by omega, by omega⟩
  | case2 qi qs pj ps h1 h2 ih =>
    rw [notLoop]
    simp only [if_neg h1, if_pos h2]
    exact ih
  | case3 qi qs pj ps h1 h2 ih =>
    rw [notLoop]
    simp only [if_neg h1, if_neg h2, List.length_cons]
    exact ⟨by omega, by omega⟩
  | case4 s t h =>
    rw [notLoop]
    · simp
    · exact h

theorem memUid_cons (x pj : Term) (ps : List Term) :
    memUid x (pj :: ps) = ((pj.uid == x.uid) || memUid x ps) := by
  unfold memUid
  rw [List.any_cons]

theorem memUid_eq_false_of_lt {x : Term} {t : List Term}
    (hlt : ∀ y ∈ t, ¬ y.uid = x.uid) :
    memUid x t = false := by
  unfold memUid
  rw [List.any_eq_false]
  intro y hy
  simp only [beq_iff_eq]
  exact hlt y hy

theorem notLoop_spec (s t : List Term) (hs : List.Pairwise uidLE s)
    (ht : List.Pairwise uidLE t) :
    (notLoop s t).1 ++ s.drop (notLoop s t).2 = s.filter (fun x => !(memUid x t)) := by
  induction s, t using notLoop.induct with
  | case1 qi qs pj ps h1 ih =>
    rw [notLoop]
    simp only [if_pos h1]
    have hqi : memUid qi (pj :: ps) = false := by
      apply memUid_eq_false_of_lt
      intro y hy
      rcases List.mem_cons.mp hy with hy | hy
      · subst hy
        exact fun he => absurd (he ▸ h1) (lt_irrefl _)
      · have : pj.uid ≤ y.uid := (List.pairwise_cons.mp ht).1 y hy
        intro he
        rw [he] at this
        exact absurd (lt_of_lt_of_le h1 this) (lt_irrefl _)
    rw [List.filter_cons, List.drop_succ_cons]
    simp only [hqi, Bool.not_false, if_pos]
    rw [List.cons_append, ih (List.pairwise_cons.mp hs).2 ht]
  | case2 qi qs pj ps h1 h2 ih =>
    rw [notLoop]
    simp only [if_neg h1, if_pos h2]
    rw [ih hs (List.pairwise_cons.mp ht).2]
    apply List.filter_congr
    intro x hx
    have hge : qi.uid ≤ x.uid := by
      rcases List.mem_cons.mp hx with hx | hx
      · rw [hx]
      · exact (List.pairwise_cons.mp hs).1 x hx
    have hne : (pj.uid == x.uid) = false := by
      simp only [beq_eq_false_iff_ne, ne_eq]
      intro he
      rw [he] at h2
      exact absurd (lt_of_lt_of_le h2 hge) (lt_irrefl _)
    rw [memUid_cons, hne, Bool.false_or]
  | case3 qi qs pj ps h1 h2 ih =>
    rw [notLoop]
    simp only [if_neg h1, if_neg h2]
    have heq : qi.uid = pj.uid := le_antisymm (le_of_not_lt h2) (le_of_not_lt h1)
    have hqi : memUid qi (pj :: ps) = true := by
      unfold memUid
      rw [List.any_eq_true]
      exact ⟨pj, by simp, by simp [heq]⟩
    rw [List.filter_cons, List.drop_succ_cons]
    simp only [hqi, Bool.not_true, if_neg]
    exact ih (List.pairwise_cons.mp hs).2 ht
  | case4 s t h =>
    rw [notLoop]
    · cases s with
      | nil => rfl
      | cons x xs =>
        cases t with
        | nil =>
          simp only [List.drop_zero, List.nil_append]
          rw [List.filter_eq_self.mpr]
          intro a _
          rfl
        | cons y ys => exact absurd rfl (fun hh => h x xs y ys hh rfl)
    · exact h

/-! ### Example terms for concrete query evaluations -/

/-- Example term with handle 1. -/
def tEx1 : Term := ⟨"<ex:a>", 1⟩

/-- Example term with handle 2. -/
def tEx2 : Term := ⟨"<ex:b>", 2⟩

/-- C4.  Counterexample: a frontier holding the same term twice.  The
merge loop of `And` appends on every equal-handle comparison, so
`q.And(q)` keeps both copies while `q.Unique()` keeps one; the two
results differ. -/
theorem query_and_self_counterexample :
    queryAnd ⟨0, [tEx1, tEx1]⟩ ⟨0, [tEx1, tEx1]⟩ =
      .ok (⟨0, [tEx1, tEx1]⟩, ⟨0, [tEx1, tEx1]⟩, ⟨0, [tEx1, tEx1]⟩) ∧
    (queryUnique ⟨0, [tEx1, tEx1]⟩).1 = ⟨0, [tEx1]⟩ ∧
    (⟨0, [tEx1, tEx1]⟩ : QueryS) ≠ ⟨0, [tEx1]⟩ := by
  refine ⟨?_, by decide, by decide⟩
  unfold queryAnd
  rw [if_neg (by decide), andLoop_self,
    show sortByID [tEx1, tEx1] = [tEx1, tEx1] from by decide]

/-- C4 (amended).  When the receiver's frontier carries no duplicate
handle, `q.And(q)` and `q.Unique()` agree: both return the frontier
sorted by handle with one instance of each term.  With duplicate
handles present they differ, since the `And` merge loop performs no
duplicate suppression. -/
theorem query_and_self_eq_unique (q : QueryS)
    (hnd : (q.terms.map Term.uid).Nodup) :
    queryAnd q q = .ok ((queryUnique q).1, (queryUnique q).2, (queryUnique q).2) := by
  unfold queryAnd queryUnique
  rw [if_neg (by simp), andLoop_self]
  have hperm : (sortByID q.terms).Perm q.terms := sortByID_perm q.terms
  have hnd2 : ((sortByID q.terms).map Term.uid).Nodup :=
    (List.Perm.nodup_iff (hperm.map Term.uid)).mpr hnd
  have hpw : List.Pairwise (fun a b : Term => a.uid ≠ b.uid) (sortByID q.terms) :=
    List.pairwise_map.mp hnd2
  rw [dedupAdj_eq_self hpw]

/-- C4 witness: a two-element duplicate-free frontier on which the
amended equation is discharged. -/
theorem query_and_self_eq_unique_witness :
    (([tEx1, tEx2].map Term.uid).Nodup) ∧
    queryAnd ⟨0, [tEx1, tEx2]⟩ ⟨0, [tEx1, tEx2]⟩ =
      .ok ((queryUnique ⟨0, [tEx1, tEx2]⟩).1, (queryUnique ⟨0, [tEx1, tEx2]⟩).2,
        (queryUnique ⟨0, [tEx1, tEx2]⟩).2) :=
  ⟨by decide, query_and_self_eq_unique ⟨0, [tEx1, tEx2]⟩ (by decide)⟩

/-- C5.  Counterexample: `Not` keeps the duplicates of the receiver,
so its output can contain adjacent equal handles — the merge loop has
no adjacent-duplicate suppression, contrary to the claim. -/
theorem query_not_duplicates_counterexample :
    queryNotTerms [tEx1, tEx1] [tEx2] = [tEx1, tEx1] ∧
    ¬ List.Chain' (fun a b : Term => a.uid ≠ b.uid) [tEx1, tEx1] := by
  constructor
  · unfold queryNotTerms
    have h1 : notLoop (sortByID [tEx1, tEx1]) (sortByID [tEx2]) = ([tEx1, tEx1], 2) := by
      have hs : sortByID [tEx1, tEx1] = [tEx1, tEx1] := by decide
      have ht : sortByID [tEx2] = [tEx2] := by decide
      rw [hs, ht]
      rw [notLoop]
      rw [if_pos (by decide)]
      rw [notLoop]
      rw [if_pos (by decide)]
      rw [notLoop]
      intro qi qs pj ps hq hp
      cases hq
    dsimp only
    rw [h1]
    decide
  · simp

/-- C5 (amended).  `Not` computes the sorted-merge set difference:
its output is exactly the receiver's frontier sorted by handle with
every term whose handle occurs in the argument removed.  Duplicates of
surviving handles in the receiver are kept, so the output may contain
adjacent duplicate handles. -/
theorem query_not_sorted_difference (qs ps : List Term) :
    queryNotTerms qs ps = (sortByID qs).filter (fun x => !(memUid x ps)) := by
  unfold queryNotTerms
  have hs := sortByID_sorted qs
  have ht := sortByID_sorted ps
  have hspec := notLoop_spec (sortByID qs) (sortByID ps) hs ht
  have hlen := notLoop_len (sortByID qs) (sortByID ps)
  have hmemc : ∀ x : Term, memUid x (sortByID ps) = memUid x ps :=
    fun x => memUid_perm (sortByID_perm ps) x
  have hfc : ((sortByID qs).filter (fun x => !(memUid x (sortByID ps)))) =
      ((sortByID qs).filter (fun x => !(memUid x ps))) := by
    apply List.filter_congr
    intro x _
    rw [hmemc x]
  rw [← hfc, ← hspec]
  by_cases hlt : (notLoop (sortByID qs) (sortByID ps)).1.length < (sortByID qs).length
  · rw [if_pos hlt]
    have hminz : min 0 (((notLoop (sortByID qs) (sortByID ps)).2 : Int) -
        ((notLoop (sortByID qs) (sortByID ps)).1.length : Int)) = 0 := by
      have := hlen.1
      omega
    rw [hminz]
    have hcount : (((sortByID qs).length : Int) + 0 -
        ((notLoop (sortByID qs) (sortByID ps)).2 : Int)).toNat =
        (sortByID qs).length - (notLoop (sortByID qs) (sortByID ps)).2 := by
      have := hlen.2
      omega
    rw [hcount]
    congr 1
    apply List.take_of_length_le
    rw [List.length_drop]
  · rw [if_neg hlt]
    have h1 : (notLoop (sortByID qs) (sortByID ps)).1.length = (sortByID qs).length := by
      have := hlen.1
      have := hlen.2
      omega
    have h2 : (notLoop (sortByID qs) (sortByID ps)).2 = (sortByID qs).length := by
      have := hlen.1
      have := hlen.2
      omega
    rw [h2, List.drop_length, List.append_nil]

/-- C9.  Counterexample: `Unique` (like `And`, `Or` and `Not`) sorts
the receiver's backing array in place, so after the call the
receiver's frontier observed via `Result()` is reordered, not
untouched. -/
theorem query_receiver_mutated_counterexample :
    (queryUnique ⟨0, [tEx2, tEx1]⟩).2 = ⟨0, [tEx1, tEx2]⟩ ∧
    (⟨0, [tEx1, tEx2]⟩ : QueryS) ≠ ⟨0, [tEx2, tEx1]⟩ := by
  constructor
  · decide
  · decide

/-- C9 (amended).  Every combinator returns a new `Query` and leaves
the receiver's frontier unchanged as a multiset, but `And`, `Or`,
`Not` and `Unique` reorder the receiver (and, for the binary
combinators, the argument) in place to be sorted by handle, while
`Out` and `In` leave the receiver untouched. -/
theorem query_receiver_after_combinators (g : Graph) (hp : Heap) (q p : QueryS)
    (fn : Stmt → Bool) (h : q.gid = p.gid) :
    (queryUnique q).2 = ⟨q.gid, sortByID q.terms⟩ ∧
    queryAnd q p = .ok (⟨q.gid, andLoop (sortByID q.terms) (sortByID p.terms)⟩,
      ⟨q.gid, sortByID q.terms⟩, ⟨p.gid, sortByID p.terms⟩) ∧
    queryOr q p = .ok (⟨q.gid, orLoop none (sortByID q.terms) (sortByID p.terms)⟩,
      ⟨q.gid, sortByID q.terms⟩, ⟨p.gid, sortByID p.terms⟩) ∧
    queryNot q p = .ok (⟨q.gid, queryNotTerms q.terms p.terms⟩,
      ⟨q.gid, sortByID q.terms⟩, ⟨p.gid, sortByID p.terms⟩) ∧
    (queryOut g hp q fn).2 = q ∧
    (queryIn g hp q fn).2 = q ∧
    (sortByID q.terms).Perm q.terms := by
  refine ⟨rfl, ?_, ?_, ?_, rfl, rfl, sortByID_perm q.terms⟩ <;>
    simp only [queryAnd, queryOr, queryNot] <;>
      rw [if_neg (by simp [h])]

/-- C9 witness: the amended combinator contract discharged on a
concrete pair of same-graph queries. -/
theorem query_receiver_after_combinators_witness :
    ((⟨0, [tEx1]⟩ : QueryS).gid = (⟨0, [tEx2]⟩ : QueryS).gid) ∧
    ((queryUnique ⟨0, [tEx1]⟩).2 = ⟨0, sortByID [tEx1]⟩ ∧
    queryAnd ⟨0, [tEx1]⟩ ⟨0, [tEx2]⟩ =
      .ok (⟨0, andLoop (sortByID [tEx1]) (sortByID [tEx2])⟩,
        ⟨0, sortByID [tEx1]⟩, ⟨0, sortByID [tEx2]⟩) ∧
    queryOr ⟨0, [tEx1]⟩ ⟨0, [tEx2]⟩ =
      .ok (⟨0, orLoop none (sortByID [tEx1]) (sortByID [tEx2])⟩,
        ⟨0, sortByID [tEx1]⟩, ⟨0, sortByID [tEx2]⟩) ∧
    queryNot ⟨0, [tEx1]⟩ ⟨0, [tEx2]⟩ =
      .ok (⟨0, queryNotTerms [tEx1] [tEx2]⟩,
        ⟨0, sortByID [tEx1]⟩, ⟨0, sortByID [tEx2]⟩) ∧
    (queryOut newGraph [] ⟨0, [tEx1]⟩ (fun _ => true)).2 = ⟨0, [tEx1]⟩ ∧
    (queryIn newGraph [] ⟨0, [tEx1]⟩ (fun _ => true)).2 = ⟨0, [tEx1]⟩ ∧
    (sortByID [tEx1]).Perm [tEx1]) :=
  ⟨rfl, query_receiver_after_combinators newGraph [] ⟨0, [tEx1]⟩ ⟨0, [tEx2]⟩
    (fun _ => true) rfl⟩

/-! ### C2: failure ordering in AddStatement -/

/-- Statement with a malformed subject and a valid local predicate. -/
def stC2 : Stmt := ⟨⟨"bad", 0⟩, ⟨"<p:x>", 0⟩, ⟨"<o:y>", 0⟩⟩

/-- Heap for the C2 counterexample. -/
def hC2 : Heap := [(0, stC2)]

/-- C2.  Counterexample: on a fresh graph, `AddStatement` with a valid
local predicate and a malformed subject panics at the subject check,
but the namespace mode has already been set — the observable state is
not what it was before the call. -/
theorem addStatement_partial_mutation_counterexample :
    (addStatement newGraph hC2 0).1.isSome = true ∧
    (addStatement newGraph hC2 0).2.1.nspace = localNS ∧
    newGraph.nspace = unknownNS ∧
    ¬ localNS = unknownNS := by
  refine ⟨by decide, by decide, rfl, by decide⟩

/-- Reports whether `AddStatement` would fail during its predicate
phase: a malformed predicate, a predicate that is not an IRI, or a
namespace-mode mismatch. -/
def predPhaseFails (g : Graph) (s : Stmt) : Bool :=
  match parts s.predicate.value with
  | .error _ => true
  | .ok (text, kind) =>
    decide (kind ≠ Kind.iri) ||
    (strHas text "http:" && decide (g.nspace = localNS)) ||
    (!(strHas text "http:") && decide (g.nspace = globalNS))

/-- C2 (amended).  The failures raised by the predicate checks —
malformed predicate, predicate that is not an IRI, and namespace-mode
mismatch — occur before any mutation, leaving graph and heap exactly
as they were; failures raised later (malformed subject or object,
term-handle collisions) can leave the namespace mode, predicate index,
interning table and allocator already mutated. -/
theorem addStatement_predicate_failure_unchanged (g : Graph) (h : Heap) (sid : StmtId)
    (s : Stmt) (hfind : alFind h sid = some s)
    (hfail : predPhaseFails g s = true) :
    ∃ msg, addStatement g h sid = (some msg, g, h) := by
  unfold addStatement
  rw [hfind]
  dsimp only
  unfold predPhaseFails at hfail
  cases hp : parts s.predicate.value with
  | error e => exact ⟨e, rfl⟩
  | ok tk =>
    obtain ⟨text, kind⟩ := tk
    rw [hp] at hfail
    dsimp only at hfail ⊢
    simp only [Bool.or_eq_true, Bool.and_eq_true, Bool.not_eq_true', decide_eq_true_eq] at hfail
    by_cases hki : kind ≠ Kind.iri
    · rw [if_pos hki]
      exact ⟨_, rfl⟩
    · rw [if_neg hki]
      rcases hfail with (hk | ⟨hh, hns⟩) | ⟨hh, hns⟩
      · exact absurd hk hki
      · rw [if_pos hh, if_pos hns]
        exact ⟨_, rfl⟩
      · rw [if_neg (by rw [hh]; exact fun hcon => Bool.noConfusion hcon), if_pos hns]
        exact ⟨_, rfl⟩

/-- Statement with a global predicate, for the C2 witness. -/
def stC2w : Stmt := ⟨⟨"<s:a>", 0⟩, ⟨"<http://example.org/p>", 0⟩, ⟨"<o:y>", 0⟩⟩

/-- Locally-namespaced graph used by the C2 witness. -/
def gC2w : Graph := { newGraph with nspace := localNS }

/-- C2 witness: adding a globally-namespaced predicate to a locally
namespaced graph fails with the store untouched. -/
theorem addStatement_predicate_failure_unchanged_witness :
    (alFind [(0, stC2w)] 0 = some stC2w) ∧
    predPhaseFails gC2w stC2w = true ∧
    (∃ msg, addStatement gC2w [(0, stC2w)] 0 = (some msg, gC2w, [(0, stC2w)])) :=
  ⟨by decide, by decide,
    addStatement_predicate_failure_unchanged gC2w [(0, stC2w)] 0 stC2w (by decide) (by decide)⟩

/-! ### C6: line identity of value-equal statement instances -/

/-- Two distinct statement instances with identical subject, predicate
and object text, both with fresh (zero) handles. -/
def hC6 : Heap :=
  [(0, ⟨⟨"<s:a>", 0⟩, ⟨"<p:x>", 0⟩, ⟨"<o:b>", 0⟩⟩),
   (1, ⟨⟨"<s:a>", 0⟩, ⟨"<p:x>", 0⟩, ⟨"<o:b>", 0⟩⟩)]

/-- C6.  Counterexample: adding two value-equal but distinct statement
instances interns both predicates to the same handle, so both carry
the same line identity; the second `setLine` overwrites the first in
the (subject, object) adjacency cell and `Lines` retrieves a single
line (the second instance), not both. -/
theorem addStatement_same_text_overwrites_counterexample :
    (addStatement newGraph hC6 0).1 = none ∧
    (addStatement (addStatement newGraph hC6 0).2.1 (addStatement newGraph hC6 0).2.2 1).1
      = none ∧
    linesOf
      (addStatement (addStatement newGraph hC6 0).2.1 (addStatement newGraph hC6 0).2.2 1).2.1
      0 2 = [1] ∧
    ¬ ([1] : List StmtId).length = 2 := by
  refine ⟨by decide, by decide, by decide, by decide⟩

/-- C6 (amended).  When a statement instance whose terms carry fresh
(zero) handles is added to a graph that has already interned all three
of its textual values — as happens when a value-equal instance was
added before — the instance is interned to the existing handles
`A`, `P`, `B`, and `setLine` binds the one line slot `from[A][B][P]`
to this instance, replacing any line previously stored under that same
identity; value-equal instances therefore share a single line identity
instead of remaining as separate lines. -/
theorem addStatement_interned_line_identity (g : Graph) (h : Heap) (sid : StmtId)
    (s : Stmt) (hfind : alFind h sid = some s)
    (hzs : s.subject.uid = 0) (hzp : s.predicate.uid = 0) (hzo : s.object.uid = 0)
    (A P B : Id64)
    (hA : alFind g.termIDs s.subject.value = some A)
    (hP : alFind g.termIDs s.predicate.value = some P)
    (hB : alFind g.termIDs s.object.value = some B)
    (text : String) (hparts : parts s.predicate.value = .ok (text, Kind.iri))
    (hns1 : ¬ (strHas text "http:" = true ∧ g.nspace = localNS))
    (hns2 : ¬ (strHas text "http:" = false ∧ g.nspace = globalNS))
    (textS : String) (kindS : Kind)
    (hsub : parts s.subject.value = .ok (textS, kindS))
    (hks : kindS = Kind.iri ∨ kindS = Kind.blank)
    (textO : String) (kindO : Kind)
    (hobj : parts s.object.value = .ok (textO, kindO))
    (hko : ¬ kindO = Kind.invalid) :
    (addStatement g h sid).1 = none ∧
    find3 (addStatement g h sid).2.1.fromIdx A B P = some sid := by
  unfold addStatement
  rw [hfind]
  dsimp only
  rw [hparts]
  dsimp only
  rw [if_neg (by simp)]
  have ht1 : ∀ g' : Graph, g'.termIDs = g.termIDs →
      addTerm g' s.subject = .ok (g', { s.subject with uid := A }) := by
    intro g' hg'
    unfold addTerm
    rw [if_pos hzs, hg', hA]
  have ht2 : ∀ g' : Graph, g'.termIDs = g.termIDs →
      addTerm g' s.predicate = .ok (g', { s.predicate with uid := P }) := by
    intro g' hg'
    unfold addTerm
    rw [if_pos hzp, hg', hP]
  have ht3 : ∀ g' : Graph, g'.termIDs = g.termIDs →
      addTerm g' s.object = .ok (g', { s.object with uid := B }) := by
    intro g' hg'
    unfold addTerm
    rw [if_pos hzo, hg', hB]
  have hkind : ¬ (kindS ≠ Kind.iri ∧ kindS ≠ Kind.blank) := by
    rcases hks with hk | hk <;> simp [hk]
  by_cases hh : strHas text "http:"
  · rw [if_pos hh, if_neg (fun hc => hns1 ⟨hh, hc⟩)]
    dsimp only
    rw [hsub]
    dsimp only
    rw [if_neg hkind, hobj]
    dsimp only
    rw [if_neg hko]
    simp only [ht1, ht2, ht3]
    refine ⟨by simp, ?_⟩
    rw [setLine_fromIdx, find3_insert3]
    rw [if_pos (show _ ∧ _ ∧ _ from by refine ⟨?_, ?_, ?_⟩ <;> simp)]
  · rw [if_neg (by simp [hh]), if_neg (fun hc => hns2 ⟨by simp [hh], hc⟩)]
    dsimp only
    rw [hsub]
    dsimp only
    rw [if_neg hkind, hobj]
    dsimp only
    rw [if_neg hko]
    simp only [ht1, ht2, ht3]
    refine ⟨by simp, ?_⟩
    rw [setLine_fromIdx, find3_insert3]
    rw [if_pos (show _ ∧ _ ∧ _ from by refine ⟨?_, ?_, ?_⟩ <;> simp)]

/-- C6 witness: the interning theorem discharged on the state left by
adding the first of the two value-equal instances. -/
theorem addStatement_interned_line_identity_witness :
    (alFind (addStatement newGraph hC6 0).2.2 1 =
      some ⟨⟨"<s:a>", 0⟩, ⟨"<p:x>", 0⟩, ⟨"<o:b>", 0⟩⟩) ∧
    ((addStatement (addStatement newGraph hC6 0).2.1 (addStatement newGraph hC6 0).2.2 1).1
        = none ∧
      find3 (addStatement (addStatement newGraph hC6 0).2.1
        (addStatement newGraph hC6 0).2.2 1).2.1.fromIdx 0 2 1 = some 1) :=
  ⟨by decide,
    addStatement_interned_line_identity (addStatement newGraph hC6 0).2.1
      (addStatement newGraph hC6 0).2.2 1
      ⟨⟨"<s:a>", 0⟩, ⟨"<p:x>", 0⟩, ⟨"<o:b>", 0⟩⟩ (by decide)
      (by decide) (by decide) (by decide)
      0 1 2 (by decide) (by decide) (by decide)
      "p:x" (by decide) (by decide) (by decide)
      "s:a" Kind.iri (by decide) (by decide)
      "o:b" Kind.iri (by decide) (by decide)⟩

/-! ### C10: RemoveStatement is keyed by statement instance -/

/-- Statement instances that were passed to `AddStatement` during a
call sequence. -/
def addedSids (ops : List Op) : List StmtId :=
  ops.filterMap (fun op => match op with
    | .add sid => some sid
    | _ => none)

/-- Every statement instance recorded in the predicate index belongs
to the given set of instances. -/
def PredSub (g : Graph) (l : List StmtId) : Prop :=
  ∀ pid cell, alFind g.pred pid = some cell → ∀ sid ∈ cell, sid ∈ l

theorem predSub_congr {g g' : Graph} {l : List StmtId} (he : g'.pred = g.pred)
    (hp : PredSub g l) : PredSub g' l := by
  intro pid cell hfind
  rw [he] at hfind
  exact hp pid cell hfind

theorem addTerm_pred {g : Graph} {t : Term} {r : Graph × Term}
    (h : addTerm g t = .ok r) : r.1.pred = g.pred := by
  unfold addTerm at h
  split at h
  · split at h
    · cases h
      rfl
    · cases h
      rfl
  · split at h
    · cases h
      rfl
    · split at h
      · cases h
        rfl
      · cases h

theorem setLine_pred (g : Graph) (sid : StmtId) (st : Stmt) :
    (setLine g sid st).pred = g.pred := by
  unfold setLine addNode
  dsimp only
  split_ifs <;> rfl

theorem removeLine_pred (g : Graph) (fid tid lid : Id64) :
    (removeLine g fid tid lid).pred = g.pred := by
  unfold removeLine
  split_ifs <;> rfl

theorem removeNode_pred (g : Graph) (id : Id64) :
    (removeNode g id).pred = g.pred := by
  unfold removeNode
  split <;> rfl

theorem orphanCleanup_pred (g : Graph) (t : Term) :
    (orphanCleanup g t).pred = g.pred := by
  unfold orphanCleanup
  split_ifs
  · rw [show ({ removeNode g t.uid with
      termIDs := alErase g.termIDs t.value } : Graph).pred = (removeNode g t.uid).pred
      from rfl]
    exact removeNode_pred g t.uid
  · rfl

theorem predSub_eraseCell {g : Graph} {l : List StmtId} (hp : PredSub g l) (K : Id64)
    {g' : Graph} (he : g'.pred = alErase g.pred K) : PredSub g' l := by
  intro pid cell hfind
  rw [he, alFind_erase] at hfind
  split_ifs at hfind
  exact hp pid cell hfind

theorem predSub_filterCell {g : Graph} {l : List StmtId} (hp : PredSub g l) (K : Id64)
    (sid : StmtId) {g' : Graph}
    (he : g'.pred = alInsert g.pred K (((alFind g.pred K).getD []).filter (· ≠ sid))) :
    PredSub g' l := by
  intro pid cell hfind
  rw [he, alFind_insert] at hfind
  split_ifs at hfind with hpid
  · cases hfind
    intro sid2 hmem
    have hmem2 := (List.mem_filter.mp hmem).1
    cases hfg : alFind g.pred K with
    | none => rw [hfg] at hmem2; cases hmem2
    | some cell0 =>
      rw [hfg] at hmem2
      exact hp K cell0 hfg sid2 hmem2
  · exact hp pid cell hfind

theorem predSub_insertCell {g : Graph} {l : List StmtId} (hp : PredSub g l) (K : Id64)
    (sid : StmtId) (hin : sid ∈ l) {g' : Graph}
    (he : g'.pred = alInsert g.pred K
      (if sid ∈ (alFind g.pred K).getD [] then (alFind g.pred K).getD []
        else sid :: (alFind g.pred K).getD [])) :
    PredSub g' l := by
  intro pid cell hfind
  rw [he, alFind_insert] at hfind
  by_cases hpid : pid = K
  · rw [if_pos hpid] at hfind
    injection hfind with hfind
    subst hfind
    intro sid2 hmem
    by_cases hmm : sid ∈ (alFind g.pred K).getD []
    · rw [if_pos hmm] at hmem
      cases hfg : alFind g.pred K with
      | none => rw [hfg] at hmem; cases hmem
      | some cell0 =>
        rw [hfg] at hmem
        exact hp K cell0 hfg sid2 hmem
    · rw [if_neg hmm] at hmem
      rcases List.mem_cons.mp hmem with hh | hh
      · rw [hh]
        exact hin
      · cases hfg : alFind g.pred K with
        | none => rw [hfg] at hh; cases hh
        | some cell0 =>
          rw [hfg] at hh
          exact hp K cell0 hfg sid2 hh
  · rw [if_neg hpid] at hfind
    exact hp pid cell hfind

theorem predSub_predCleanup {g : Graph} {l : List StmtId} (hp : PredSub g l)
    (s : Stmt) (sid : StmtId) : PredSub (predCleanup g s sid) l := by
  unfold predCleanup
  dsimp only
  split_ifs
  · exact predSub_eraseCell hp s.predicate.uid rfl
  · exact predSub_eraseCell hp s.predicate.uid rfl
  · exact predSub_filterCell hp s.predicate.uid sid rfl

theorem predSub_removeStatement {g : Graph} {l : List StmtId} (hp : PredSub g l)
    (h : Heap) (sid : StmtId) : PredSub (removeStatement g h sid).1 l := by
  unfold removeStatement
  split
  · exact hp
  next s heq =>
    split
    · exact hp
    · have h1 : PredSub (removeLine g s.subject.uid s.object.uid s.predicate.uid) l :=
        predSub_congr (removeLine_pred g _ _ _) hp
      have h2 := predSub_predCleanup h1 s sid
      exact predSub_congr (orphanCleanup_pred _ _)
        (predSub_congr (orphanCleanup_pred _ _) h2)

theorem predSub_fold_removeStatement {start : Graph × Heap} {l : List StmtId}
    (hp : PredSub start.1 l) (sids : List StmtId) :
    PredSub ((sids.foldl (fun (gh : Graph × Heap) sid => removeStatement gh.1 gh.2 sid)
      start)).1 l := by
  induction sids generalizing start with
  | nil => exact hp
  | cons sid tl ih =>
    simp only [List.foldl_cons]
    exact ih (predSub_removeStatement hp _ _)

theorem predSub_fold_removeStatement2 {start : Graph × Heap} {l : List StmtId}
    (hp : PredSub start.1 l) (t : Term) (outs : List Id64) :
    PredSub ((outs.foldl (fun (gh : Graph × Heap) o =>
      let cell : List (Id64 × StmtId) := (alFind ((alFind gh.1.fromIdx t.uid).getD []) o).getD []
      (cell.map Prod.snd).foldl (fun (gh : Graph × Heap) sid => removeStatement gh.1 gh.2 sid) gh)
      start)).1 l := by
  induction outs generalizing start with
  | nil => exact hp
  | cons o tl ih =>
    simp only [List.foldl_cons]
    exact ih (predSub_fold_removeStatement hp _)

theorem predSub_removeTerm {g : Graph} {l : List StmtId} (hp : PredSub g l)
    (h : Heap) (t : Term) : PredSub (removeTerm g h t).1 l := by
  unfold removeTerm
  have h1 : PredSub (match alFind g.pred t.uid with
      | some sids => sids.foldl (fun (gh : Graph × Heap) sid => removeStatement gh.1 gh.2 sid)
          (g, h)
      | none => (g, h)).1 l := by
    split
    · exact predSub_fold_removeStatement hp _
    · exact hp
  dsimp only
  split
  · exact h1
  · apply predSub_congr
    · rfl
    · apply predSub_congr (removeNode_pred _ _)
      split
      · exact predSub_fold_removeStatement2 h1 t _
      · exact predSub_fold_removeStatement (predSub_fold_removeStatement2 h1 t _) _

theorem predSub_addStatement {g : Graph} {l : List StmtId} (hp : PredSub g l)
    (h : Heap) (sid : StmtId) (hin : sid ∈ l) :
    PredSub (addStatement g h sid).2.1 l := by
  unfold addStatement
  split
  · exact hp
  next s heq =>
    split
    · exact hp
    next text kind heqp =>
      split
      · exact hp
      · split
        · exact hp
        next ns heqn =>
          try dsimp only
          split
          · exact predSub_congr rfl hp
          next skind heqs =>
            split
            · exact predSub_congr rfl hp
            · split
              · exact predSub_congr rfl hp
              next okind heqo =>
                split
                · exact predSub_congr rfl hp
                · have hp2 : ∀ g' : Graph, g'.pred = alInsert g.pred s.predicate.uid
                      (if sid ∈ (alFind g.pred s.predicate.uid).getD []
                        then (alFind g.pred s.predicate.uid).getD []
                        else sid :: (alFind g.pred s.predicate.uid).getD []) →
                      PredSub g' l :=
                    fun g' he => predSub_insertCell hp s.predicate.uid sid hin he
                  try dsimp only
                  split
                  · exact hp2 _ rfl
                  next g1 subj heqt =>
                    try dsimp only
                    split
                    · exact predSub_congr (addTerm_pred heqt) (hp2 _ rfl)
                    next g2 prd heqt2 =>
                      try dsimp only
                      split
                      · exact predSub_congr (addTerm_pred heqt2)
                          (predSub_congr (addTerm_pred heqt) (hp2 _ rfl))
                      next g3 obj heqt3 =>
                        try dsimp only
                        exact predSub_congr (setLine_pred _ _ _)
                          (predSub_congr (addTerm_pred heqt3)
                            (predSub_congr (addTerm_pred heqt2)
                              (predSub_congr (addTerm_pred heqt) (hp2 _ rfl))))

theorem predSub_applyOp {gh : Graph × Heap} {l : List StmtId} (hp : PredSub gh.1 l)
    (op : Op) (hops : ∀ sid, op = Op.add sid → sid ∈ l) :
    PredSub (applyOp gh op).1 l := by
  cases op with
  | add sid => exact predSub_addStatement hp gh.2 sid (hops sid rfl)
  | removeStmt sid => exact predSub_removeStatement hp gh.2 sid
  | removeTrm t => exact predSub_removeTerm hp gh.2 t

theorem predSub_build (ops : List Op) (h0 : Heap) :
    PredSub (build ops h0).1 (addedSids ops) := by
  unfold build
  have hgen : ∀ (l : List StmtId) (gh : Graph × Heap) (tl : List Op), PredSub gh.1 l →
      (∀ op ∈ tl, ∀ sid, op = Op.add sid → sid ∈ l) →
      PredSub (tl.foldl applyOp gh).1 l := by
    intro l gh tl
    induction tl generalizing gh with
    | nil => intro hp _; exact hp
    | cons op tl ih =>
      intro hp hops
      simp only [List.foldl_cons]
      exact ih _ (predSub_applyOp hp op (hops op (by simp)))
        (fun op2 hmem => hops op2 (by simp [hmem]))
  apply hgen
  · intro pid cell hfind
    cases hfind
  · intro op hmem sid heq
    unfold addedSids
    rw [List.mem_filterMap]
    exact ⟨op, hmem, by rw [heq]⟩

/-- C10.  `RemoveStatement` removes a statement only when it is the
identical instance previously passed to `AddStatement`: a statement
instance never passed to `AddStatement` — in particular a value-equal
but distinct copy of an added statement — is a no-op that leaves graph
and heap completely unchanged, because membership in the predicate
index is keyed by instance identity. -/
theorem removeStatement_foreign_instance_noop (ops : List Op) (h0 : Heap) (sid : StmtId)
    (hnot : ¬ sid ∈ addedSids ops) :
    removeStatement (build ops h0).1 (build ops h0).2 sid = build ops h0 := by
  have hsub := predSub_build ops h0
  unfold removeStatement
  split
  · rfl
  next s heq =>
    split
    · rfl
    next hmem =>
      exfalso
      apply hmem
      intro hin
      cases hfg : alFind (build ops h0).1.pred s.predicate.uid with
      | none =>
        rw [hfg] at hin
        cases hin
      | some cell =>
        rw [hfg] at hin
        exact hnot (hsub s.predicate.uid cell hfg sid hin)

/-- Value-equal pair of statement instances with pre-assigned handles:
instance 0 is added; instance 1 is its never-added copy. -/
def hC10 : Heap :=
  [(0, ⟨⟨"<a:a>", 1⟩, ⟨"<p:x>", 3⟩, ⟨"<t:t>", 2⟩⟩),
   (1, ⟨⟨"<a:a>", 1⟩, ⟨"<p:x>", 3⟩, ⟨"<t:t>", 2⟩⟩)]

/-- C10 witness: after adding instance 0, removing the value-equal
distinct instance 1 leaves the store untouched. -/
theorem removeStatement_foreign_instance_noop_witness :
    (¬ (1 : StmtId) ∈ addedSids [Op.add 0]) ∧
    removeStatement (build [Op.add 0] hC10).1 (build [Op.add 0] hC10).2 1 =
      build [Op.add 0] hC10 :=
  ⟨by decide, removeStatement_foreign_instance_noop [Op.add 0] hC10 1 (by decide)⟩

/-! ### C7: RemoveTerm cleanup is incomplete -/

/-- Two statement instances with pre-assigned handles, both with the
term `<t:t>` (handle 2) as object, from two different subjects. -/
def hC7 : Heap :=
  [(0, ⟨⟨"<a:a>", 1⟩, ⟨"<p:x>", 3⟩, ⟨"<t:t>", 2⟩⟩),
   (1, ⟨⟨"<b:b>", 4⟩, ⟨"<p:x>", 3⟩, ⟨"<t:t>", 2⟩⟩)]

/-- C7.  Evaluation of the failing input: after adding both statements
and calling `RemoveTerm` on `<t:t>`, the statement instance 0 — whose
object is the removed term — is still recorded in the predicate index
under the predicate handle 3, and its subject node 1 remains in the
node table with no remaining adjacency (no orphan cleanup was
performed for it).  The reverse-adjacency pass of `RemoveTerm` tests
`if from.Next()` instead of looping, so only the first in-neighbour's
statements are removed; `removeNode` then silently drops the adjacency
cells of the rest without touching the predicate index. -/
theorem removeTerm_incomplete_cleanup :
    alFind (removeTerm (build [Op.add 0, Op.add 1] hC7).1
      (build [Op.add 0, Op.add 1] hC7).2 ⟨"<t:t>", 2⟩).1.pred 3 = some [0] ∧
    alContains (removeTerm (build [Op.add 0, Op.add 1] hC7).1
      (build [Op.add 0, Op.add 1] hC7).2 ⟨"<t:t>", 2⟩).1.nodes 1 = true ∧
    outLen (removeTerm (build [Op.add 0, Op.add 1] hC7).1
      (build [Op.add 0, Op.add 1] hC7).2 ⟨"<t:t>", 2⟩).1 1 = 0 ∧
    inLen (removeTerm (build [Op.add 0, Op.add 1] hC7).1
      (build [Op.add 0, Op.add 1] hC7).2 ⟨"<t:t>", 2⟩).1 1 = 0 ∧
    (alFind hC7 0).map (fun s => s.object.uid) = some 2 := by
  refine ⟨by decide, by decide, by decide, by decide, by decide⟩

/-! ### C3: descendant/ancestor duality

`IsDescendantOf` and `DescendantsOf` are built on gonum's
`traverse.BreadthFirst`, an external collaborator modelled at its
interface: the walk visits each node at most once, and the first-visit
depth reported to the callback is the node's BFS level, i.e. its
shortest accepted-path distance from the start.  `balls` computes the
set reachable within `n` accepted steps; `bfsDepth` the first level at
which a node satisfying the callback's test is visited. -/

/-- Namespace-dependent GO-term and subclass-predicate strings chosen
by the ontology algorithms. -/
def nsStrings (ns : Int) : Option (String × String) :=
  if ns = localNS then some ("<obo:GO_", "<rdfs:subClassOf>")
  else if ns = globalNS then
    some ("<http://purl.obolibrary.org/obo/GO_",
      "<http://www.w3.org/2000/01/rdf-schema#subClassOf>")
  else none

/-- Edge acceptance of the forward is-a walk used by `IsDescendantOf`:
some statement bundled on the `u → v` edge has a GO-prefixed object
and the subclass predicate. -/
def acceptFwd (g : Graph) (h : Heap) (gt sc : String) (u v : Id64) : Bool :=
  (cellStmts g h u v).any (fun s => strHas s.object.value gt && (s.predicate.value == sc))

/-- Edge acceptance of the reversed walk used by `DescendantsOf`: the
reversed step from `x` to `u` traverses the forward edge `u → x`,
accepted when some bundled statement has a GO-prefixed subject and the
subclass predicate. -/
def acceptRev (g : Graph) (h : Heap) (gt sc : String) (x u : Id64) : Bool :=
  (cellStmts g h u x).any (fun s => strHas s.subject.value gt && (s.predicate.value == sc))

/-- Node ids known to the graph. -/
def univIds (g : Graph) : List Id64 :=
  alKeys g.nodes

/-- Nodes reachable from `s` within `n` accepted steps. -/
def balls (r : Id64 → Id64 → Bool) (univ : List Id64) (s : Id64) : Nat → List Id64
  | 0 => [s]
  | n + 1 =>
    let b := balls r univ s n
    b ++ univ.filter (fun v => !(b.contains v) && b.any (fun u => r u v))

/-- First BFS level at which a node satisfying `found` is visited,
searched up to the diameter bound `univ.length`. -/
def bfsDepth (r : Id64 → Id64 → Bool) (univ : List Id64) (s : Id64)
    (found : Id64 → Bool) : Option Nat :=
  (List.range (univ.length + 1)).find? (fun n => (balls r univ s n).any found)

/-- Term seen by a walk at a node: the start node is the term the
caller passed; other nodes come from the node table. -/
def nodeTermAt (g : Graph) (start : Term) (id : Id64) : Term :=
  if id = start.uid then start else (alFind g.nodes id).getD ⟨"", 0⟩

/-- The walk of `Graph.IsDescendantOf` once the namespace strings are
chosen: BFS from the query term along forward is-a edges, reporting
the first-visit depth of the ancestor. -/
def isDescendantOfGo (g : Graph) (h : Heap) (a q : Term) (gt sc : String) : Bool × Int :=
  if ¬ strHas a.value gt then (false, -1)
  else if ¬ strHas q.value gt then (false, -1)
  else
    match bfsDepth (acceptFwd g h gt sc) (univIds g) q.uid
      (fun id => nodeTermAt g q id == a) with
    | some n => (true, (n : Int))
    | none => (false, -1)

/-- Embeds `Graph.IsDescendantOf`. -/
def isDescendantOf (g : Graph) (h : Heap) (a q : Term) : Bool × Int :=
  match nsStrings g.nspace with
  | none => (false, -1)
  | some (gt, sc) => isDescendantOfGo g h a q gt sc

/-- The walk of `Graph.DescendantsOf` once the namespace strings are
chosen: BFS from the term over the reversed is-a relation, collecting
every reached node other than the start, paired with its first-visit
depth. -/
def descendantsOfGo (g : Graph) (h : Heap) (t : Term) (gt sc : String) : List Descendant :=
  if ¬ strHas t.value gt then []
  else
    (univIds g).filterMap (fun id =>
      match bfsDepth (acceptRev g h gt sc) (univIds g) t.uid (fun x => x == id) with
      | some dep =>
        if dep = 0 then none
        else some ⟨(alFind g.nodes id).getD ⟨"", 0⟩, (dep : Int)⟩
      | none => none)

/-- Embeds `Graph.DescendantsOf`. -/
def descendantsOf (g : Graph) (h : Heap) (t : Term) : List Descendant :=
  match nsStrings g.nspace with
  | none => []
  | some (gt, sc) => descendantsOfGo g h t gt sc

/-- Well-formedness of one recorded line: the statement instance is on
the heap, its subject and object handles match the cell it sits in,
both endpoints are in the node table, and the statement's term values
agree with the node table. -/
def wfCell (g : Graph) (h : Heap) (u v : Id64) (sid : StmtId) : Bool :=
  match alFind h sid, alFind g.nodes u, alFind g.nodes v with
  | some st, some tu, some tv =>
    decide (st.subject.uid = u) && decide (st.object.uid = v) &&
    decide (st.subject.value = tu.value) && decide (st.object.value = tv.value)
  | _, _, _ => false

/-- Well-formedness of a populated store, as the add path maintains
it: every line of the forward index satisfies `wfCell` and every node
table entry carries its own id. -/
def wfg (g : Graph) (h : Heap) : Bool :=
  g.fromIdx.all (fun p1 => p1.2.all (fun p2 => p2.2.all (fun p3 => wfCell g h p1.1 p2.1 p3.2))) &&
  g.nodes.all (fun pn => decide (pn.2.uid = pn.1))

theorem wfg_nodes {g : Graph} {h : Heap} (hw : wfg g h = true) {id : Id64} {t : Term}
    (hf : alFind g.nodes id = some t) : t.uid = id := by
  unfold wfg at hw
  rw [Bool.and_eq_true] at hw
  have h2 := hw.2
  rw [List.all_eq_true] at h2
  have := h2 (id, t) (alFind_mem hf)
  simpa using this

theorem wfg_cellStmt {g : Graph} {h : Heap} (hw : wfg g h = true) {u v : Id64} {st : Stmt}
    (hm : st ∈ cellStmts g h u v) :
    ∃ tu tv, alFind g.nodes u = some tu ∧ alFind g.nodes v = some tv ∧
      st.subject.uid = u ∧ st.object.uid = v ∧
      st.subject.value = tu.value ∧ st.object.value = tv.value := by
  unfold cellStmts linesOf at hm
  rw [List.mem_filterMap] at hm
  obtain ⟨sid, hsid, hfh⟩ := hm
  rw [List.mem_map] at hsid
  obtain ⟨e, he, hesnd⟩ := hsid
  cases hout : alFind g.fromIdx u with
  | none => rw [hout] at he; cases he
  | some outer =>
    rw [hout] at he
    simp only [Option.getD_some] at he
    cases hcell : alFind outer v with
    | none => rw [hcell] at he; cases he
    | some cell =>
      rw [hcell] at he
      simp only [Option.getD_some] at he
      unfold wfg at hw
      rw [Bool.and_eq_true] at hw
      have h1 := hw.1
      rw [List.all_eq_true] at h1
      have h1 := h1 (u, outer) (alFind_mem hout)
      rw [List.all_eq_true] at h1
      have h1 := h1 (v, cell) (alFind_mem hcell)
      rw [List.all_eq_true] at h1
      have h1 := h1 e he
      unfold wfCell at h1
      rw [hesnd, hfh] at h1
      cases hnu : alFind g.nodes u with
      | none => rw [hnu] at h1; cases h1
      | some tu =>
        rw [hnu] at h1
        cases hnv : alFind g.nodes v with
        | none => rw [hnv] at h1; cases h1
        | some tv =>
          rw [hnv] at h1
          simp only [Bool.and_eq_true, decide_eq_true_eq] at h1
          exact ⟨tu, tv, rfl, rfl, h1.1.1.1, h1.1.1.2, h1.1.2, h1.2⟩

/-- The node table holds a GO-prefixed term at `u`. -/
def goNodeB (g : Graph) (gt : String) (u : Id64) : Bool :=
  match alFind g.nodes u with
  | some t => strHas t.value gt
  | none => false

theorem goNodeB_iff {g : Graph} {gt : String} {u : Id64} :
    goNodeB g gt u = true ↔ ∃ t, alFind g.nodes u = some t ∧ strHas t.value gt = true := by
  unfold goNodeB
  cases hf : alFind g.nodes u with
  | none => simp
  | some t => simp [hf]

theorem acceptFwd_go {g : Graph} {h : Heap} (hw : wfg g h = true) {gt sc : String}
    {u v : Id64} (ha : acceptFwd g h gt sc u v = true) : goNodeB g gt v = true := by
  unfold acceptFwd at ha
  rw [List.any_eq_true] at ha
  obtain ⟨st, hm, hp⟩ := ha
  rw [Bool.and_eq_true] at hp
  obtain ⟨_, tv, _, hnv, _, _, _, hov⟩ := wfg_cellStmt hw hm
  exact goNodeB_iff.mpr ⟨tv, hnv, by rw [← hov]; exact hp.1⟩

theorem acceptFwd_rev {g : Graph} {h : Heap} (hw : wfg g h = true) {gt sc : String}
    {u v : Id64} (ha : acceptFwd g h gt sc u v = true) (hu : goNodeB g gt u = true) :
    acceptRev g h gt sc v u = true := by
  unfold acceptFwd at ha
  rw [List.any_eq_true] at ha
  obtain ⟨st, hm, hp⟩ := ha
  rw [Bool.and_eq_true] at hp
  obtain ⟨tu, _, hnu, _, _, _, hsv, _⟩ := wfg_cellStmt hw hm
  obtain ⟨tu2, hnu2, hgo⟩ := goNodeB_iff.mp hu
  rw [hnu] at hnu2
  cases hnu2
  unfold acceptRev
  rw [List.any_eq_true]
  exact ⟨st, hm, by rw [Bool.and_eq_true]; exact ⟨by rw [hsv]; exact hgo, hp.2⟩⟩

theorem acceptRev_go {g : Graph} {h : Heap} (hw : wfg g h = true) {gt sc : String}
    {x u : Id64} (ha : acceptRev g h gt sc x u = true) : goNodeB g gt u = true := by
  unfold acceptRev at ha
  rw [List.any_eq_true] at ha
  obtain ⟨st, hm, hp⟩ := ha
  rw [Bool.and_eq_true] at hp
  obtain ⟨tu, _, hnu, _, _, _, hsv, _⟩ := wfg_cellStmt hw hm
  exact goNodeB_iff.mpr ⟨tu, hnu, by rw [← hsv]; exact hp.1⟩

theorem acceptRev_fwd {g : Graph} {h : Heap} (hw : wfg g h = true) {gt sc : String}
    {x u : Id64} (ha : acceptRev g h gt sc x u = true) (hx : goNodeB g gt x = true) :
    acceptFwd g h gt sc u x = true := by
  unfold acceptRev at ha
  rw [List.any_eq_true] at ha
  obtain ⟨st, hm, hp⟩ := ha
  rw [Bool.and_eq_true] at hp
  obtain ⟨_, tx, _, hnx, _, _, _, hov⟩ := wfg_cellStmt hw hm
  obtain ⟨tx2, hnx2, hgo⟩ := goNodeB_iff.mp hx
  rw [hnx] at hnx2
  cases hnx2
  unfold acceptFwd
  rw [List.any_eq_true]
  exact ⟨st, hm, by rw [Bool.and_eq_true]; exact ⟨by rw [hov]; exact hgo, hp.2⟩⟩

/-- Accepted paths over the node universe: every node after the start
must lie in `univ`. -/
inductive Path (r : Id64 → Id64 → Bool) (univ : List Id64) : Id64 → Id64 → Nat → Prop
  | refl (s : Id64) : Path r univ s s 0
  | tail {s u v : Id64} {n : Nat} :
      Path r univ s u n → r u v = true → v ∈ univ → Path r univ s v (n + 1)

theorem path_head {r : Id64 → Id64 → Bool} {univ : List Id64} {u w : Id64} {n : Nat}
    (hp : Path r univ u w n) : ∀ {v : Id64}, r v u = true → u ∈ univ →
      Path r univ v w (n + 1) := by
  induction hp with
  | refl => exact fun hr hu => Path.tail (Path.refl _) hr hu
  | tail _ hr2 hv2 ih => exact fun hr hu => Path.tail (ih hr hu) hr2 hv2

theorem balls_succ_sub (r : Id64 → Id64 → Bool) (univ : List Id64) (s : Id64) (n : Nat)
    {x : Id64} (hx : x ∈ balls r univ s n) : x ∈ balls r univ s (n + 1) := by
  unfold balls
  exact List.mem_append_left _ hx

theorem balls_mono (r : Id64 → Id64 → Bool) (univ : List Id64) (s : Id64) {m n : Nat}
    (hmn : m ≤ n) {x : Id64} (hx : x ∈ balls r univ s m) : x ∈ balls r univ s n := by
  induction hmn with
  | refl => exact hx
  | step _ ih => exact balls_succ_sub r univ s _ ih

theorem mem_balls_iff {r : Id64 → Id64 → Bool} {univ : List Id64} {s : Id64} {n : Nat}
    {x : Id64} : x ∈ balls r univ s n ↔ ∃ k, k ≤ n ∧ Path r univ s x k := by
  constructor
  · intro hx
    induction n generalizing x with
    | zero =>
      unfold balls at hx
      rw [List.mem_singleton] at hx
      exact ⟨0, Nat.le_refl _, by rw [hx]; exact Path.refl s⟩
    | succ n ih =>
      unfold balls at hx
      rw [List.mem_append] at hx
      cases hx with
      | inl hb =>
        obtain ⟨k, hk, hp⟩ := ih hb
        exact ⟨k, Nat.le_succ_of_le hk, hp⟩
      | inr hf =>
        rw [List.mem_filter] at hf
        obtain ⟨hxu, hcond⟩ := hf
        rw [Bool.and_eq_true, List.any_eq_true] at hcond
        obtain ⟨_, u, hub, hru⟩ := hcond
        obtain ⟨k, hk, hp⟩ := ih hub
        exact ⟨k + 1, Nat.succ_le_succ hk, Path.tail hp hru hxu⟩
  · rintro ⟨k, hk, hp⟩
    refine balls_mono r univ s hk ?_
    clear hk
    induction hp with
    | refl => unfold balls; exact List.mem_singleton.mpr rfl
    | @tail u v n hp hr hv ih =>
      by_cases hmem : v ∈ balls r univ s n
      · exact balls_succ_sub r univ s _ hmem
      · unfold balls
        refine List.mem_append_right _ ?_
        rw [List.mem_filter]
        refine ⟨hv, ?_⟩
        rw [Bool.and_eq_true, List.any_eq_true]
        constructor
        · rw [Bool.not_eq_true', ← Bool.not_eq_true]
          intro hc
          exact hmem (List.elem_iff.mp hc)
        · exact ⟨_, ih, hr⟩

theorem path_fwd_goNode {g : Graph} {h : Heap} (hw : wfg g h = true) {gt sc : String}
    {univ : List Id64} {q v : Id64} {k : Nat}
    (hp : Path (acceptFwd g h gt sc) univ q v k) (hq : goNodeB g gt q = true) :
    goNodeB g gt v = true := by
  induction hp with
  | refl => exact hq
  | tail _ hr _ _ => exact acceptFwd_go hw hr

theorem path_rev_goNode {g : Graph} {h : Heap} (hw : wfg g h = true) {gt sc : String}
    {univ : List Id64} {a v : Id64} {k : Nat}
    (hp : Path (acceptRev g h gt sc) univ a v k) (ha : goNodeB g gt a = true) :
    goNodeB g gt v = true := by
  induction hp with
  | refl => exact ha
  | tail _ hr _ _ => exact acceptRev_go hw hr

theorem path_fwd_to_rev {g : Graph} {h : Heap} (hw : wfg g h = true) {gt sc : String}
    {q v : Id64} {k : Nat}
    (hp : Path (acceptFwd g h gt sc) (univIds g) q v k) (hq : goNodeB g gt q = true) :
    Path (acceptRev g h gt sc) (univIds g) v q k := by
  induction hp with
  | refl => exact Path.refl q
  | @tail u v n hp2 hr _ ih =>
    have hu : goNodeB g gt u = true := path_fwd_goNode hw hp2 hq
    obtain ⟨tu, hnu, _⟩ := goNodeB_iff.mp hu
    exact path_head ih (acceptFwd_rev hw hr hu) (mem_keys_of_alFind_some hnu)

theorem path_rev_to_fwd {g : Graph} {h : Heap} (hw : wfg g h = true) {gt sc : String}
    {a v : Id64} {k : Nat}
    (hp : Path (acceptRev g h gt sc) (univIds g) a v k) (ha : goNodeB g gt a = true) :
    Path (acceptFwd g h gt sc) (univIds g) v a k := by
  induction hp with
  | refl => exact Path.refl a
  | @tail u v n hp2 hr _ ih =>
    have hu : goNodeB g gt u = true := path_rev_goNode hw hp2 ha
    obtain ⟨tu, hnu, _⟩ := goNodeB_iff.mp hu
    exact path_head ih (acceptRev_fwd hw hr hu) (mem_keys_of_alFind_some hnu)

/-- BFS duality at the level of reachable sets: the ancestor is within
`n` forward steps of the query exactly when the query is within `n`
reversed steps of the ancestor. -/
theorem balls_duality {g : Graph} {h : Heap} (hw : wfg g h = true) {gt sc : String}
    {aid qid : Id64} (ha : goNodeB g gt aid = true) (hq : goNodeB g gt qid = true)
    (n : Nat) :
    aid ∈ balls (acceptFwd g h gt sc) (univIds g) qid n ↔
      qid ∈ balls (acceptRev g h gt sc) (univIds g) aid n := by
  rw [mem_balls_iff, mem_balls_iff]
  constructor
  · rintro ⟨k, hk, hp⟩
    exact ⟨k, hk, path_fwd_to_rev hw hp hq⟩
  · rintro ⟨k, hk, hp⟩
    exact ⟨k, hk, path_rev_to_fwd hw hp ha⟩

theorem findq_congr {α : Type} {p q : α → Bool} :
    ∀ {l : List α}, (∀ x ∈ l, p x = q x) → l.find? p = l.find? q
  | [], _ => rfl
  | x :: l, hpq => by
    rw [List.find?_cons, List.find?_cons, hpq x (List.mem_cons_self x l)]
    cases q x with
    | true => rfl
    | false => exact findq_congr (fun y hy => hpq y (List.mem_cons_of_mem x hy))

theorem findq_range_succ_ne_zero {P : Nat → Bool} {N n : Nat}
    (hf : (List.range (N + 1)).find? P = some n) (hn : n ≠ 0) : P 0 = false := by
  rw [List.range_succ_eq_map, List.find?_cons] at hf
  cases hP : P 0 with
  | true => rw [hP] at hf; cases hf; exact absurd rfl hn
  | false => rfl

theorem isDescendantOf_ns_none {g : Graph} {h : Heap} {a q : Term}
    (hns : nsStrings g.nspace = none) : isDescendantOf g h a q = (false, -1) := by
  unfold isDescendantOf
  rw [hns]

theorem isDescendantOf_ns_some {g : Graph} {h : Heap} {a q : Term} {gt sc : String}
    (hns : nsStrings g.nspace = some (gt, sc)) :
    isDescendantOf g h a q = isDescendantOfGo g h a q gt sc := by
  unfold isDescendantOf
  rw [hns]

theorem descendantsOf_ns_none {g : Graph} {h : Heap} {t : Term}
    (hns : nsStrings g.nspace = none) : descendantsOf g h t = [] := by
  unfold descendantsOf
  rw [hns]

theorem descendantsOf_ns_some {g : Graph} {h : Heap} {t : Term} {gt sc : String}
    (hns : nsStrings g.nspace = some (gt, sc)) :
    descendantsOf g h t = descendantsOfGo g h t gt sc := by
  unfold descendantsOf
  rw [hns]

theorem nsStrings_fst_ne_nil {ns : Int} {gt sc : String}
    (h : nsStrings ns = some (gt, sc)) : gt.data ≠ [] := by
  unfold nsStrings at h
  split_ifs at h with h1 h2
  · rw [Option.some.injEq, Prod.mk.injEq] at h
    rw [← h.1]
    decide
  · rw [Option.some.injEq, Prod.mk.injEq] at h
    rw [← h.1]
    decide

theorem strHas_value_ne_empty {v p : String} (hv : strHas v p = true)
    (hp : p.data ≠ []) : ¬ v = "" := by
  intro hveq
  subst hveq
  unfold strHas at hv
  cases hd : p.data with
  | nil => exact hp hd
  | cons c cs =>
    rw [hd] at hv
    rw [show ("" : String).data = [] from rfl] at hv
    simp [chStarts] at hv

theorem nodeTermAt_found_eq {g : Graph} {h : Heap} (hw : wfg g h = true) {a q : Term}
    (hna : alFind g.nodes a.uid = some a) (hnq : alFind g.nodes q.uid = some q)
    (hne : ¬ a = q) (hav : ¬ a.value = "") (id : Id64) :
    (nodeTermAt g q id == a) = (id == a.uid) := by
  have hau : ¬ a.uid = q.uid := by
    intro he
    rw [he, hnq] at hna
    exact hne (Option.some.inj hna).symm
  unfold nodeTermAt
  by_cases hid : id = q.uid
  · rw [if_pos hid]
    have h1 : (q == a) = false := by
      rw [beq_eq_false_iff_ne]
      intro hqa
      exact hne hqa.symm
    have h2 : (id == a.uid) = false := by
      rw [beq_eq_false_iff_ne, hid]
      intro hqa
      exact hau hqa.symm
    rw [h1, h2]
  · rw [if_neg hid]
    cases hf : alFind g.nodes id with
    | some t =>
      simp only [Option.getD_some]
      by_cases hta : t = a
      · have hia : id = a.uid := by rw [← wfg_nodes hw hf, hta]
        rw [hta, hia]
        simp
      · have h1 : (t == a) = false := beq_eq_false_iff_ne.mpr hta
        have h2 : (id == a.uid) = false := by
          rw [beq_eq_false_iff_ne]
          intro hi
          apply hta
          rw [hi, hna] at hf
          exact (Option.some.inj hf).symm
        rw [h1, h2]
    | none =>
      simp only [Option.getD_none]
      have h1 : ((⟨"", 0⟩ : Term) == a) = false := by
        rw [beq_eq_false_iff_ne]
        intro hd
        exact hav (by rw [← hd])
      have h2 : (id == a.uid) = false := by
        rw [beq_eq_false_iff_ne]
        intro hi
        rw [hi, hna] at hf
        cases hf
      rw [h1, h2]

theorem nodes_getD_eq {g : Graph} {h : Heap} (hw : wfg g h = true) {q : Term}
    (hnq : alFind g.nodes q.uid = some q) (hqv : ¬ q.value = "") {id : Id64} :
    (alFind g.nodes id).getD ⟨"", 0⟩ = q ↔ id = q.uid := by
  constructor
  · intro he
    cases hf : alFind g.nodes id with
    | some t =>
      rw [hf, Option.getD_some] at he
      rw [← wfg_nodes hw hf, he]
    | none =>
      rw [hf, Option.getD_none] at he
      exact absurd (congrArg Term.value he).symm hqv
  · intro he
    rw [he, hnq, Option.getD_some]

theorem isDescendantOfGo_eq_iff {g : Graph} {h : Heap} {a q : Term} {gt sc : String}
    {d : Int} (hpa : strHas a.value gt = true) (hpq : strHas q.value gt = true) :
    isDescendantOfGo g h a q gt sc = (true, d) ↔
      ∃ n : Nat, bfsDepth (acceptFwd g h gt sc) (univIds g) q.uid
        (fun id => nodeTermAt g q id == a) = some n ∧ d = (n : Int) := by
  unfold isDescendantOfGo
  rw [if_neg (not_not_intro hpa), if_neg (not_not_intro hpq)]
  cases hbf : bfsDepth (acceptFwd g h gt sc) (univIds g) q.uid
      (fun id => nodeTermAt g q id == a) with
  | none =>
    constructor
    · intro hL
      exact absurd hL (by simp)
    · rintro ⟨n, hn, _⟩
      exact Option.noConfusion hn
  | some m =>
    constructor
    · intro hL
      exact ⟨m, rfl, (congrArg Prod.snd hL).symm⟩
    · rintro ⟨n, hn, hd⟩
      have hnm : m = n := Option.some.inj hn
      subst hnm
      exact congrArg (fun z => ((true, z) : Bool × Int)) hd.symm

theorem mem_descendantsOfGo_iff {g : Graph} {h : Heap} (hw : wfg g h = true)
    {a q : Term} {gt sc : String} {d : Int}
    (hpa : strHas a.value gt = true)
    (hnq : alFind g.nodes q.uid = some q) (hqv : ¬ q.value = "") :
    ((⟨q, d⟩ : Descendant) ∈ descendantsOfGo g h a gt sc) ↔
      ∃ n : Nat, bfsDepth (acceptRev g h gt sc) (univIds g) a.uid
        (fun x => x == q.uid) = some n ∧ ¬ n = 0 ∧ d = (n : Int) := by
  unfold descendantsOfGo
  rw [if_neg (not_not_intro hpa), List.mem_filterMap]
  constructor
  · rintro ⟨id, hidu, hf⟩
    cases hb : bfsDepth (acceptRev g h gt sc) (univIds g) a.uid (fun x => x == id) with
    | none =>
      simp only [hb] at hf
      exact Option.noConfusion hf
    | some dep =>
      simp only [hb] at hf
      by_cases hdz : dep = 0
      · rw [if_pos hdz] at hf
        exact Option.noConfusion hf
      · rw [if_neg hdz] at hf
        rw [Option.some.injEq, Descendant.mk.injEq] at hf
        have hid : id = q.uid := (nodes_getD_eq hw hnq hqv).mp hf.1
        rw [hid] at hb
        exact ⟨dep, hb, hdz, hf.2.symm⟩
  · rintro ⟨n, hb, hn0, hd⟩
    refine ⟨q.uid, mem_keys_of_alFind_some hnq, ?_⟩
    simp only [hb]
    rw [if_neg hn0, hnq, Option.getD_some, hd]

/-- C3 (amended).  On a well-formed store whose node table contains
`a` and `q`, and for `a ≠ q`, `IsDescendantOf(a, q)` returns
`(true, d)` exactly when `DescendantsOf(a)` contains
`Descendant{Term: q, Depth: d}`: the forward walk of `IsDescendantOf`
and the reversed walk of `DescendantsOf` are dual.  The restriction
`a ≠ q` is necessary: `IsDescendantOf(a, a)` reports `(true, 0)` but
`DescendantsOf(a)` never contains the start term (see the
counterexample). -/
theorem descendant_ancestor_duality (g : Graph) (h : Heap) (a q : Term)
    (hw : wfg g h = true)
    (hna : alFind g.nodes a.uid = some a) (hnq : alFind g.nodes q.uid = some q)
    (hne : ¬ a = q) (d : Int) :
    isDescendantOf g h a q = (true, d) ↔ (⟨q, d⟩ : Descendant) ∈ descendantsOf g h a := by
  have hau : ¬ a.uid = q.uid := by
    intro he
    rw [he, hnq] at hna
    exact hne (Option.some.inj hna).symm
  cases hns : nsStrings g.nspace with
  | none =>
    rw [isDescendantOf_ns_none hns, descendantsOf_ns_none hns]
    simp
  | some p =>
    obtain ⟨gt, sc⟩ := p
    rw [isDescendantOf_ns_some hns, descendantsOf_ns_some hns]
    have hgt := nsStrings_fst_ne_nil hns
    by_cases hpa : strHas a.value gt = true
    · by_cases hpq : strHas q.value gt = true
      · have hav := strHas_value_ne_empty hpa hgt
        have hqv := strHas_value_ne_empty hpq hgt
        have hgoa : goNodeB g gt a.uid = true := goNodeB_iff.mpr ⟨a, hna, hpa⟩
        have hgoq : goNodeB g gt q.uid = true := goNodeB_iff.mpr ⟨q, hnq, hpq⟩
        have hfound := nodeTermAt_found_eq hw hna hnq hne hav
        have hdual : bfsDepth (acceptFwd g h gt sc) (univIds g) q.uid
            (fun id => nodeTermAt g q id == a) =
            bfsDepth (acceptRev g h gt sc) (univIds g) a.uid (fun x => x == q.uid) := by
          unfold bfsDepth
          rw [show (univIds g).length + 1 = (univIds g).length + 1 from rfl]
          apply findq_congr
          intro n _
          simp only [hfound]
          rw [Bool.eq_iff_iff]
          rw [List.any_eq_true, List.any_eq_true]
          constructor
          · rintro ⟨x, hx, hxe⟩
            rw [beq_iff_eq] at hxe
            rw [hxe] at hx
            exact ⟨q.uid, (balls_duality hw hgoa hgoq n).mp hx, by rw [beq_iff_eq]⟩
          · rintro ⟨x, hx, hxe⟩
            rw [beq_iff_eq] at hxe
            rw [hxe] at hx
            exact ⟨a.uid, (balls_duality hw hgoa hgoq n).mpr hx, by rw [beq_iff_eq]⟩
        rw [isDescendantOfGo_eq_iff hpa hpq, mem_descendantsOfGo_iff hw hpa hnq hqv, hdual]
        constructor
        · rintro ⟨n, hb, hd⟩
          refine ⟨n, hb, ?_, hd⟩
          intro hn0
          subst hn0
          unfold bfsDepth at hb
          have hPraw := List.find?_some hb
          have hP : (balls (acceptRev g h gt sc) (univIds g) a.uid 0).any
              (fun x => x == q.uid) = true := hPraw
          rw [show balls (acceptRev g h gt sc) (univIds g) a.uid 0 = [a.uid] from rfl] at hP
          rw [show ([a.uid].any (fun x => x == q.uid)) = (a.uid == q.uid) from by simp] at hP
          rw [beq_iff_eq] at hP
          exact hau hP
        · rintro ⟨n, hb, _, hd⟩
          exact ⟨n, hb, hd⟩
      · have hLeq : isDescendantOfGo g h a q gt sc = (false, -1) := by
          unfold isDescendantOfGo
          rw [if_neg (not_not_intro hpa), if_pos hpq]
        rw [hLeq]
        constructor
        · intro hc
          exact absurd hc (by simp)
        · intro hR
          exfalso
          unfold descendantsOfGo at hR
          rw [if_neg (not_not_intro hpa), List.mem_filterMap] at hR
          obtain ⟨id, hidu, hf⟩ := hR
          cases hb : bfsDepth (acceptRev g h gt sc) (univIds g) a.uid (fun x => x == id) with
          | none =>
            simp only [hb] at hf
            exact Option.noConfusion hf
          | some dep =>
            simp only [hb] at hf
            by_cases hdz : dep = 0
            · rw [if_pos hdz] at hf
              exact Option.noConfusion hf
            · rw [if_neg hdz] at hf
              rw [Option.some.injEq, Descendant.mk.injEq] at hf
              have hb2 := hb
              unfold bfsDepth at hb2
              have hPraw := List.find?_some hb2
              have hP : (balls (acceptRev g h gt sc) (univIds g) a.uid dep).any
                  (fun x => x == id) = true := hPraw
              have hP0 : (balls (acceptRev g h gt sc) (univIds g) a.uid 0).any
                  (fun x => x == id) = false := findq_range_succ_ne_zero hb2 hdz
              have hid_ne : ¬ id = a.uid := by
                intro hide
                rw [show balls (acceptRev g h gt sc) (univIds g) a.uid 0 = [a.uid] from rfl] at hP0
                rw [show ([a.uid].any (fun x => x == id)) = (a.uid == id) from by simp] at hP0
                rw [beq_eq_false_iff_ne] at hP0
                exact hP0 hide.symm
              rw [List.any_eq_true] at hP
              obtain ⟨x, hx, hxe⟩ := hP
              rw [beq_iff_eq] at hxe
              rw [hxe] at hx
              rw [mem_balls_iff] at hx
              obtain ⟨k, hk, hpath⟩ := hx
              cases hpath with
              | refl => exact hid_ne rfl
              | tail hp2 hr hv =>
                obtain ⟨t, hft, hgo⟩ := goNodeB_iff.mp (acceptRev_go hw hr)
                have hterm := hf.1
                rw [hft, Option.getD_some] at hterm
                rw [hterm] at hgo
                exact hpq hgo
    · unfold isDescendantOfGo descendantsOfGo
      rw [if_pos hpa, if_pos hpa]
      simp

/-- One decoded statement `<obo:GO_0000002> <rdfs:subClassOf>
<obo:GO_0000001>` with fresh (zero) handles. -/
def hC3e : Heap :=
  [(0, ⟨⟨"<obo:GO_0000002>", 0⟩, ⟨"<rdfs:subClassOf>", 0⟩, ⟨"<obo:GO_0000001>", 0⟩⟩)]

/-- Local-namespace store holding that single subclass statement. -/
def gC3 : Graph :=
  (build [Op.add 0] hC3e).1

def hC3f : Heap :=
  (build [Op.add 0] hC3e).2

/-- The interned ancestor term `<obo:GO_0000001>`. -/
def aC3 : Term :=
  ⟨"<obo:GO_0000001>", 2⟩

/-- The interned descendant term `<obo:GO_0000002>`. -/
def qC3 : Term :=
  ⟨"<obo:GO_0000002>", 0⟩

/-- C3.  Counterexample to the unrestricted duality claim: on a store
holding `<obo:GO_0000002> <rdfs:subClassOf> <obo:GO_0000001>`, the
query `IsDescendantOf(a, a)` for `a = <obo:GO_0000001>` answers
`(true, 0)` - the breadth-first walk finds the sought ancestor at the
start node itself - but `DescendantsOf(a)` never reports the start
term, so no `Descendant{Term: a, Depth: 0}` entry exists and the two
views disagree at `a = q`. -/
theorem isDescendantOf_self_not_in_descendants :
    isDescendantOf gC3 hC3f aC3 aC3 = (true, 0) ∧
    ¬ ((⟨aC3, 0⟩ : Descendant) ∈ descendantsOf gC3 hC3f aC3) :=
  ⟨by decide, by decide⟩

/-- C3.  Witness: the amended duality theorem applied to the concrete
store, with `a = <obo:GO_0000001>`, `q = <obo:GO_0000002>` and depth 1. -/
theorem descendant_ancestor_duality_witness :
    wfg gC3 hC3f = true ∧ alFind gC3.nodes aC3.uid = some aC3 ∧
    alFind gC3.nodes qC3.uid = some qC3 ∧ ¬ aC3 = qC3 ∧
    (isDescendantOf gC3 hC3f aC3 qC3 = (true, 1) ↔
      (⟨qC3, 1⟩ : Descendant) ∈ descendantsOf gC3 hC3f aC3) :=
  ⟨by decide, by decide, by decide, by decide,
   descendant_ancestor_duality gC3 hC3f aC3 qC3 (by decide) (by decide) (by decide)
     (by decide) 1⟩

/-! ### C8: Roots

`Graph.Roots` collects the standard roots found by `TermFor` and - if
none were found, or when forced - walks depth-first from every node
along accepted is-a edges, adding the first visited node that
satisfies the stopping condition.  The gonum `traverse.DepthFirst`
walk is an external collaborator modelled at its interface: it visits
the accepted-edge reachable set in an unspecified order (Go map
iteration makes the order nondeterministic in the source too) and
returns the first visited node satisfying `until`, or nothing. -/

/-- Namespace-dependent strings of `Graph.Roots`: GO-term prefix,
subclass predicate, deprecation predicate, boolean true literal, and
the three standard root IRIs. -/
def rootStrings (ns : Int) :
    Option (String × String × String × String × List String) :=
  if ns = localNS then
    some ("<obo:GO_", "<rdfs:subClassOf>", "<owl:deprecated>",
      "\x22true\x22^^<xsd:boolean>",
      ["<obo:GO_0003674>", "<obo:GO_0005575>", "<obo:GO_0008150>"])
  else if ns = globalNS then
    some ("<http://purl.obolibrary.org/obo/GO_",
      "<http://www.w3.org/2000/01/rdf-schema#subClassOf>",
      "<http://www.w3.org/2002/07/owl#deprecated>",
      "\x22true\x22^^<http://www.w3.org/2001/XMLSchema#boolean>",
      ["<http://purl.obolibrary.org/obo/GO_0003674>",
       "<http://purl.obolibrary.org/obo/GO_0005575>",
       "<http://purl.obolibrary.org/obo/GO_0008150>"])
  else none

/-- The walk's stopping condition: a GO-prefixed term that is not
marked deprecated and has no outgoing accepted subclass edge. -/
def untilCond (g : Graph) (h : Heap) (gt sc dp w3 : String) (t : Term) : Bool :=
  strHas t.value gt &&
  (outTerms g h [t] (fun s => s.predicate.value == dp && s.object.value == w3)).isEmpty &&
  (outTerms g h [t] (fun s => strHas s.object.value gt && s.predicate.value == sc)).isEmpty

/-- Result of one depth-first walk from `start`: the first visited
node - over the accepted-edge reachable set - whose term satisfies the
stopping condition. -/
def dfsFinal (g : Graph) (h : Heap) (gt sc dp w3 : String) (start : Term) : Option Term :=
  ((balls (acceptFwd g h gt sc) (univIds g) start.uid (univIds g).length).map
    (nodeTermAt g start)).find? (untilCond g h gt sc dp w3)

/-- The body of `Graph.Roots` once the namespace strings are chosen.
The root set is a map keyed by term; the model returns its members as
a list (possibly with duplicates), preserving membership. -/
def rootsOfGo (g : Graph) (h : Heap) (force : Bool) (gt sc dp w3 : String)
    (std : List String) : List Term :=
  let rootSet := std.filterMap (fun r => termFor g h r)
  if force || rootSet.isEmpty then
    rootSet ++ (univIds g).filterMap (fun id =>
      match alFind g.nodes id with
      | none => none
      | some t => dfsFinal g h gt sc dp w3 t)
  else rootSet

/-- Embeds `Graph.Roots`. -/
def rootsOf (g : Graph) (h : Heap) (force : Bool) : List Term :=
  match rootStrings g.nspace with
  | none => []
  | some (gt, sc, dp, w3, std) => rootsOfGo g h force gt sc dp w3 std

theorem rootsOf_ns_some {g : Graph} {h : Heap} {force : Bool}
    {gt sc dp w3 : String} {std : List String}
    (hns : rootStrings g.nspace = some (gt, sc, dp, w3, std)) :
    rootsOf g h force = rootsOfGo g h force gt sc dp w3 std := by
  unfold rootsOf
  rw [hns]

theorem rootStrings_fst_ne_nil {ns : Int} {gt sc dp w3 : String} {std : List String}
    (h : rootStrings ns = some (gt, sc, dp, w3, std)) : gt.data ≠ [] := by
  unfold rootStrings at h
  split_ifs at h with h1 h2
  · rw [Option.some.injEq, Prod.mk.injEq] at h
    rw [← h.1]
    decide
  · rw [Option.some.injEq, Prod.mk.injEq] at h
    rw [← h.1]
    decide

theorem untilCond_default_false {g : Graph} {h : Heap} {gt sc dp w3 : String}
    (hgt : gt.data ≠ []) : untilCond g h gt sc dp w3 ⟨"", 0⟩ = false := by
  unfold untilCond
  have hs : strHas "" gt = false := by
    unfold strHas
    cases hd : gt.data with
    | nil => exact absurd hd hgt
    | cons c cs =>
      rw [show ("" : String).data = [] from rfl]
      rfl
  rw [hs]
  rfl

/-- C8.  When the namespace mode is established, at least one of the
three standard root terms is present, and every node whose term is a
non-deprecated GO dead end (the walk's stopping condition) is itself
one of the found standard roots, `Roots(false)` and `Roots(true)` hold
the same set of terms: the forced whole-graph search can only ever add
terms that the standard-root lookup already found. -/
theorem roots_force_same_set (g : Graph) (h : Heap)
    (gt sc dp w3 : String) (std : List String)
    (hns : rootStrings g.nspace = some (gt, sc, dp, w3, std))
    (hpres : ¬ std.filterMap (fun r => termFor g h r) = [])
    (hdead : ∀ p ∈ g.nodes, untilCond g h gt sc dp w3 p.2 = true →
      p.2 ∈ std.filterMap (fun r => termFor g h r))
    (t : Term) :
    t ∈ rootsOf g h false ↔ t ∈ rootsOf g h true := by
  rw [rootsOf_ns_some hns, rootsOf_ns_some hns]
  have hempty : (std.filterMap (fun r => termFor g h r)).isEmpty = false := by
    cases hl : std.filterMap (fun r => termFor g h r) with
    | nil => exact absurd hl hpres
    | cons a l => rfl
  have hfalse : rootsOfGo g h false gt sc dp w3 std =
      std.filterMap (fun r => termFor g h r) := by
    unfold rootsOfGo
    simp [hempty]
  have htrue : rootsOfGo g h true gt sc dp w3 std =
      std.filterMap (fun r => termFor g h r) ++ (univIds g).filterMap (fun id =>
        match alFind g.nodes id with
        | none => none
        | some t0 => dfsFinal g h gt sc dp w3 t0) := by
    unfold rootsOfGo
    simp
  rw [hfalse, htrue]
  constructor
  · exact fun ht => List.mem_append_left _ ht
  · intro ht
    rw [List.mem_append] at ht
    cases ht with
    | inl h1 => exact h1
    | inr h2 =>
      rw [List.mem_filterMap] at h2
      obtain ⟨id, hidu, hf⟩ := h2
      cases hn : alFind g.nodes id with
      | none =>
        simp only [hn] at hf
        exact Option.noConfusion hf
      | some t0 =>
        simp only [hn] at hf
        unfold dfsFinal at hf
        have hcond := List.find?_some hf
        have hmem := List.mem_of_find?_eq_some hf
        rw [List.mem_map] at hmem
        obtain ⟨id2, hid2, hteq⟩ := hmem
        unfold nodeTermAt at hteq
        by_cases hstart : id2 = t0.uid
        · rw [if_pos hstart] at hteq
          subst hteq
          exact hdead (id, t0) (alFind_mem hn) hcond
        · rw [if_neg hstart] at hteq
          cases hn2 : alFind g.nodes id2 with
          | some t2 =>
            rw [hn2, Option.getD_some] at hteq
            subst hteq
            exact hdead (id2, t2) (alFind_mem hn2) hcond
          | none =>
            exfalso
            rw [hn2, Option.getD_none] at hteq
            rw [← hteq] at hcond
            rw [untilCond_default_false (rootStrings_fst_ne_nil hns)] at hcond
            exact Bool.noConfusion hcond

/-- Three decoded statements linking one child term to the three
standard roots, all with fresh handles. -/
def hC8e : Heap :=
  [(0, ⟨⟨"<obo:GO_0000010>", 0⟩, ⟨"<rdfs:subClassOf>", 0⟩, ⟨"<obo:GO_0003674>", 0⟩⟩),
   (1, ⟨⟨"<obo:GO_0000010>", 0⟩, ⟨"<rdfs:subClassOf>", 0⟩, ⟨"<obo:GO_0005575>", 0⟩⟩),
   (2, ⟨⟨"<obo:GO_0000010>", 0⟩, ⟨"<rdfs:subClassOf>", 0⟩, ⟨"<obo:GO_0008150>", 0⟩⟩)]

/-- Local-namespace store holding the three subclass statements. -/
def gC8 : Graph :=
  (build [Op.add 0, Op.add 1, Op.add 2] hC8e).1

def hC8f : Heap :=
  (build [Op.add 0, Op.add 1, Op.add 2] hC8e).2

/-- C8.  Witness: the concrete store has all three standard roots
present and its only dead ends are the standard roots themselves, so
`Roots(false)` and `Roots(true)` agree on membership - instantiated at
the molecular_function root term. -/
theorem roots_force_same_set_witness :
    rootStrings gC8.nspace = some ("<obo:GO_", "<rdfs:subClassOf>", "<owl:deprecated>",
      "\x22true\x22^^<xsd:boolean>",
      ["<obo:GO_0003674>", "<obo:GO_0005575>", "<obo:GO_0008150>"]) ∧
    ¬ (["<obo:GO_0003674>", "<obo:GO_0005575>", "<obo:GO_0008150>"].filterMap
      (fun r => termFor gC8 hC8f r)) = [] ∧
    (∀ p ∈ gC8.nodes, untilCond gC8 hC8f "<obo:GO_" "<rdfs:subClassOf>" "<owl:deprecated>"
      "\x22true\x22^^<xsd:boolean>" p.2 = true →
      p.2 ∈ (["<obo:GO_0003674>", "<obo:GO_0005575>", "<obo:GO_0008150>"].filterMap
        (fun r => termFor gC8 hC8f r))) ∧
    ((⟨"<obo:GO_0003674>", 2⟩ : Term) ∈ rootsOf gC8 hC8f false ↔
      (⟨"<obo:GO_0003674>", 2⟩ : Term) ∈ rootsOf gC8 hC8f true) :=
  ⟨by decide, by decide, by decide,
   roots_force_same_set gC8 hC8f "<obo:GO_" "<rdfs:subClassOf>" "<owl:deprecated>"
     "\x22true\x22^^<xsd:boolean>"
     ["<obo:GO_0003674>", "<obo:GO_0005575>", "<obo:GO_0008150>"]
     (by decide) (by decide) (by decide) ⟨"<obo:GO_0003674>", 2⟩⟩

end Gogo
